import Mathlib

/-!
# Verification of the CPM/PERT scheduling core (fonctions.py)

Shallow embedding of the core functions of the repository:
`count_vertices`, `count_arcs`, `build_adjacency_matrix`, `detect_cycle`,
`assign_ranks`, `compute_schedules`, `get_duration`, `calculate_slacks`.

Modelling conventions:
* A task record is a triple `(id, duration, predecessor list)` of Python ints,
  embedded as `Int × Int × List Int`.
* Python dicts keyed by ints are embedded as association lists with
  overwrite-on-insert semantics (`Dict`, `dinsert`, `dlookup`).
* Python code that can raise (`KeyError` on a dict, `IndexError` on a list
  assignment) or loop forever is embedded as an `Option`-returning function:
  `none` models "no value is returned" (exception or divergence).
* The adjacency matrix is a list of rows; the absent-arc marker is
  embedded as `none : Option Int`.
* The two unbounded loops (the relaxation loop of `assign_ranks` and the
  work-queue loop of `detect_cycle`) are embedded with explicit fuel.
  For `detect_cycle` the fuel (one unit per pop) is proved sufficient:
  each vertex is enqueued at most once.  For `assign_ranks` the fuel is the
  vertex count, the pass bound stated by the specification; sufficiency on
  acyclic inputs with resolvable predecessors is proved below, and on the
  remaining inputs the Python loop diverges or raises.
-/

namespace Ordon

/-- A task record `(id, duration, predecessors)` as read from an input file. -/
abbrev Task := Int × Int × List Int

/-- Python dict with int keys and int values, as an association list.
Keys are unique by construction (`dinsert` overwrites in place). -/
abbrev Dict := List (Int × Int)

/-- Dict lookup: `d[k]` when present. -/
def dlookup (d : Dict) (k : Int) : Option Int :=
  (d.find? (fun p => p.1 = k)).map (fun p => p.2)

/-- Dict assignment `d[k] = v`: overwrite in place, else append
(Python dicts keep insertion order). -/
def dinsert (k v : Int) (d : Dict) : Dict :=
  if d.any (fun p => p.1 = k) then
    d.map (fun p => if p.1 = k then (k, v) else p)
  else
    d ++ [(k, v)]

/-- The key list of a dict (insertion order). -/
def dkeys (d : Dict) : List Int := d.map (fun p => p.1)

/-- Task id of a record. -/
def taskId (t : Task) : Int := t.1

/-- Duration of a record. -/
def taskDur (t : Task) : Int := t.2.1

/-- Predecessor list of a record. -/
def taskPreds (t : Task) : List Int := t.2.2

/-- The task-id list of a task set. -/
def taskIds (tasks : List Task) : List Int := tasks.map taskId

/-- `max` of a nonempty list, Python style (first element as seed). -/
def maxList (v : Int) (vs : List Int) : Int := vs.foldl max v

/-- `min` of a nonempty list, Python style. -/
def minList (v : Int) (vs : List Int) : Int := vs.foldl min v

/-- `count_vertices(tasks)`: number of vertices, `len(tasks) + 2`. -/
def count_vertices (tasks : List Task) : Nat := tasks.length + 2

/-- The set `all_tasks` of `count_arcs`: all task ids. -/
def allTasksSet (tasks : List Task) : Finset Int :=
  tasks.foldl (fun s t => insert (taskId t) s) ∅

/-- The set `tasks_with_succ` of `count_arcs`: every id that occurs in some
predecessor list. -/
def tasksWithSuccSet (tasks : List Task) : Finset Int :=
  tasks.foldl (fun s t => s ∪ (taskPreds t).toFinset) ∅

/-- `count_arcs(tasks)`: one arc per predecessor entry, one α-arc per
predecessor-free task, one ω-arc per task that never occurs as a
predecessor. -/
def count_arcs (tasks : List Task) : Nat :=
  let arcs := tasks.foldl
    (fun a t => if taskPreds t = [] then a + 1 else a + (taskPreds t).length) 0
  arcs + ((allTasksSet tasks) \ (tasksWithSuccSet tasks)).card

/-- `get_duration(task_id, tasks)`: duration of the task with the given id,
defaulting to 0 when the id is not found (the Python fallback). -/
def get_duration (task_id : Int) (tasks : List Task) : Int :=
  ((tasks.find? (fun t => taskId t = task_id)).map taskDur).getD 0

/-- A matrix cell: `none` embeds the Python no-arc marker, `some w`
an arc of weight `w`. -/
abbrev Cell := Option Int

/-- The adjacency matrix: a list of rows. -/
abbrev Matrix := List (List Cell)

/-- `matrix[i][j]` for in-range reads inside `detect_cycle` (both loops there
range over `range(n)` only, so reads never fail; out-of-range reads give the
no-arc default). -/
def cellAt (M : Matrix) (i j : Nat) : Cell := (M.getD i []).getD j none

/-- Python list index resolution: `0 ≤ i < n` as is, `-n ≤ i < 0` from the
end, otherwise `IndexError`. -/
def pyIdx (n : Nat) (i : Int) : Option Nat :=
  if 0 ≤ i ∧ i < (n : Int) then some i.toNat
  else if -(n : Int) ≤ i ∧ i < 0 then some ((n : Int) + i).toNat
  else none

/-- Python list assignment `matrix[i][j] = v`; `none` embeds `IndexError`. -/
def setCell (M : Matrix) (i j : Int) (v : Cell) : Option Matrix := do
  let r ← pyIdx M.length i
  let row := M.getD r []
  let c ← pyIdx row.length j
  some (M.set r (row.set c v))

/-- The duration of predecessor `p` as looked up by `build_adjacency_matrix`
and `show_arcs`: `next((d for (tid, d, _) in tasks if tid == p), None)`. -/
def findDur (p : Int) (tasks : List Task) : Option Int :=
  (tasks.find? (fun t => taskId t = p)).map taskDur

/-- Does `tid` belong to the `no_succ` set (a task id that never occurs in
any predecessor list)? -/
def isNoSucc (tasks : List Task) (tid : Int) : Bool :=
  (tasks.any (fun t => taskId t = tid)) &&
    !(tasks.any (fun t => (taskPreds t).contains tid))

/-- The row/column index at which `build_adjacency_matrix` places the
task→ω arcs: `nb_sommets - 1 = len(tasks) + 1`. -/
def buildOmega (tasks : List Task) : Int := (tasks.length : Int) + 1

/-- `build_adjacency_matrix(tasks)`: α-arcs for predecessor-free tasks,
one arc per resolvable predecessor (an unresolvable predecessor is skipped),
and ω-arcs for tasks without successors.  `none` embeds an `IndexError`
(a task id outside the index range of the `(len+2) × (len+2)` matrix). -/
def build_adjacency_matrix (tasks : List Task) : Option Matrix := do
  let M1 ← tasks.foldlM (fun M t =>
    if taskPreds t = [] then
      setCell M 0 (taskId t) (some 0)
    else
      (taskPreds t).foldlM (fun M' p =>
        match findDur p tasks with
        | some d => setCell M' p (taskId t) (some d)
        | none => some M') M)
    (List.replicate (tasks.length + 2)
      (List.replicate (tasks.length + 2) (none : Cell)))
  tasks.foldlM (fun M t =>
    if isNoSucc tasks (taskId t) then
      setCell M (taskId t) (buildOmega tasks) (some (taskDur t))
    else some M) M1

/-- The initial in-degree table of `detect_cycle`: `in_degree[j]` counts the
arcs `i → j` of the matrix. -/
def initInDegree (M : Matrix) : List Int :=
  (List.range M.length).map
    (fun j => ((List.range M.length).countP (fun i => (cellAt M i j).isSome) : Int))

/-- The inner `for v in range(n)` loop of one pop of Kahn's algorithm, over
an arbitrary index list: decrement the in-degree of each out-neighbour of
`u`, collecting each neighbour whose in-degree reaches zero. -/
def procFold (M : Matrix) (u : Nat) (L : List Nat)
    (indeg : List Int) (app : List Nat) : List Int × List Nat :=
  L.foldl
    (fun (st : List Int × List Nat) v =>
      if (cellAt M u v).isSome then
        let d' := st.1.getD v 0 - 1
        let indeg' := st.1.set v d'
        if d' = 0 then (indeg', st.2 ++ [v]) else (indeg', st.2)
      else st)
    (indeg, app)

/-- One pop of Kahn's loop: decrement the in-degree of each out-neighbour
of `u`, collecting the neighbours whose in-degree reaches zero, in index
order (they are appended to the queue). -/
def processNeighbors (M : Matrix) (indeg : List Int) (u : Nat) :
    List Int × List Nat :=
  procFold M u (List.range M.length) indeg []

/-- The work-queue loop of `detect_cycle`; returns the visited count.
One unit of fuel per pop; `M.length` is proved sufficient below. -/
def kahnLoop (M : Matrix) : Nat → List Int → List Nat → Nat → Nat
  | _, _, [], count => count
  | 0, _, _ :: _, count => count
  | fuel + 1, indeg, u :: rest, count =>
      let st := processNeighbors M indeg u
      kahnLoop M fuel st.1 (rest ++ st.2) (count + 1)

/-- `detect_cycle(matrix)`: Kahn's algorithm; reports a cycle when the
visited count is below the vertex count. -/
def detect_cycle (M : Matrix) : Bool :=
  let indeg := initInDegree M
  let queue := (List.range M.length).filter (fun i => indeg.getD i 0 = 0)
  decide (kahnLoop M M.length indeg queue 0 < M.length)

/-- `has_negative_arcs(tasks)`: does some task have a negative duration? -/
def has_negative_arcs (tasks : List Task) : Bool :=
  tasks.any (fun t => taskDur t < 0)

/-- The rank dict right after `ranks[0] = 0` and one `ranks[t_id] = 0` per
task. -/
def initRanks (tasks : List Task) : Dict :=
  tasks.foldl (fun r t => dinsert (taskId t) 0 r) [(0, 0)]

/-- `max` over the keys of a dict (`max(ranks.keys())`); the dicts it is
applied to always hold the key 0. -/
def maxKeys (d : Dict) : Option Int :=
  match dkeys d with
  | [] => none
  | k :: ks => some (maxList k ks)

/-- The ω key of `assign_ranks`: `max(ranks.keys()) + 1` evaluated right
after `initRanks`, i.e. `max({0} ∪ ids) + 1`. -/
def omegaKey (tasks : List Task) : Int :=
  (maxKeys (initRanks tasks)).getD 0 + 1

/-- The rank dict at the top of the relaxation loop: `initRanks` plus
`ranks[ω] = 0`. -/
def ranksStart (tasks : List Task) : Dict :=
  dinsert (omegaKey tasks) 0 (initRanks tasks)

/-- The per-task body of one relaxation pass.  `none` embeds a `KeyError`
(a predecessor absent from the rank dict). -/
def rankStep (r : Dict) (changed : Bool) (t : Task) : Option (Dict × Bool) := do
  if taskPreds t = [] then
    let cur ← dlookup r (taskId t)
    if taskId t ≠ 0 ∧ cur = 0 then
      some (dinsert (taskId t) 1 r, true)
    else
      some (r, changed)
  else
    let vals ← (taskPreds t).mapM (dlookup r)
    let maxPred := match vals with
      | [] => 0
      | v :: vs => maxList v vs
    let newRank := maxPred + 1
    let cur ← dlookup r (taskId t)
    if newRank > cur then
      some (dinsert (taskId t) newRank r, true)
    else
      some (r, changed)

/-- One full relaxation pass: every task in list order, then the ω update
`ranks[ω] = 1 + max(ranks[t] for t ≠ ω)`. -/
def rankPass (tasks : List Task) (omega : Int) (r : Dict) :
    Option (Dict × Bool) := do
  let (r1, ch1) ← tasks.foldlM (fun (st : Dict × Bool) t => rankStep st.1 st.2 t)
    (r, false)
  let others := (r1.filter (fun p => p.1 ≠ omega)).map (fun p => p.2)
  match others with
  | [] => none
  | v :: vs =>
    let current := maxList v vs + 1
    let curOmega ← dlookup r1 omega
    if current ≠ curOmega then
      some (dinsert omega current r1, true)
    else
      some (r1, ch1)

/-- The relaxation loop: repeat `rankPass` until a pass reports no change.
Fuel exhaustion (`none`) embeds divergence. -/
def rankLoop (tasks : List Task) (omega : Int) : Nat → Dict → Option Dict
  | 0, _ => none
  | fuel + 1, r => do
      let (r', ch) ← rankPass tasks omega r
      if ch then rankLoop tasks omega fuel r' else some r'

/-- Sorted insertion of a key/value pair (keys of a rank dict are unique,
so the placement among equal keys is irrelevant). -/
def insertPair (x : Int × Int) : Dict → Dict
  | [] => [x]
  | y :: ys => if y.1 < x.1 then y :: insertPair x ys else x :: y :: ys

/-- Sort a dict by key: `sorted(ranks.items())`. -/
def sortPairs : Dict → Dict
  | [] => []
  | x :: xs => insertPair x (sortPairs xs)

/-- `assign_ranks(tasks)`: relaxation to fixpoint, then the returned dict is
sorted by key (`OrderedDict(sorted(ranks.items()))`).  The fuel is the
vertex count, the specification's bound on the number of passes. -/
def assign_ranks (tasks : List Task) : Option Dict :=
  (rankLoop tasks (omegaKey tasks) (count_vertices tasks) (ranksStart tasks)).map
    sortPairs

/-- Stable insertion: `x` (earlier in the original list than everything in
the already-sorted tail) is placed before elements of equal key, like
Python's stable sort. -/
def insertByKey (key : Task → Int) (x : Task) : List Task → List Task
  | [] => [x]
  | y :: ys => if key y < key x then y :: insertByKey key x ys else x :: y :: ys

/-- Stable sort by key: `sorted(tasks, key=...)`. -/
def sortByKey (key : Task → Int) : List Task → List Task
  | [] => []
  | x :: xs => insertByKey key x (sortByKey key xs)

/-- The forward-pass body for one task. -/
def forwardStep (tasks : List Task) (e : Dict) (t : Task) : Option Dict := do
  if taskPreds t = [] then
    if taskId t ≠ 0 then
      let e0 ← dlookup e 0
      some (dinsert (taskId t) e0 e)
    else
      some e
  else
    let vals ← (taskPreds t).mapM
      (fun p => (dlookup e p).map (fun v => v + get_duration p tasks))
    match vals with
    | [] => some e
    | v :: vs => some (dinsert (taskId t) (maxList v vs) e)

/-- The successor list of `t_id`: every task that lists it as a predecessor,
in task-list order. -/
def succsOf (tasks : List Task) (tid : Int) : List Int :=
  (tasks.filter (fun s => (taskPreds s).contains tid)).map taskId

/-- The backward-pass body for one task. -/
def backwardStep (tasks : List Task) (omega : Int) (l : Dict) (t : Task) :
    Option Dict :=
  match succsOf tasks (taskId t) with
  | [] =>
    if taskId t ≠ omega then do
      let lo ← dlookup l omega
      some (dinsert (taskId t) (lo - taskDur t) l)
    else
      some l
  | s :: ss => do
    let vals ← (s :: ss).mapM (dlookup l)
    match vals with
    | [] => some l
    | v :: vs => some (dinsert (taskId t) (minList v vs - taskDur t) l)

/-- The task list sorted by rank (`sorted(tasks, key=lambda x: ranks[x[0]])`);
the rank lookup is guarded by the `all` check in `compute_schedules`, so the
`getD 0` default is never exercised on the inputs the pipeline sorts. -/
def schedSorted (tasks : List Task) (ranks : Dict) : List Task :=
  sortByKey (fun t => (dlookup ranks (taskId t)).getD 0) tasks

/-- The `no_succ` set of `compute_schedules`, as a duplicate-free list. -/
def noSuccList (tasks : List Task) : List Int :=
  (taskIds tasks).dedup.filter (fun tid => isNoSucc tasks tid)

/-- `earliest[omega] = max(earliest[t] + duration(t) for t in no_succ)
if no_succ else 0`. -/
def omegaEarliest (tasks : List Task) (e1 : Dict) : Option Int :=
  match noSuccList tasks with
  | [] => some 0
  | t0 :: ts => do
      let vals ← (t0 :: ts).mapM
        (fun tid => (dlookup e1 tid).map (fun v => v + get_duration tid tasks))
      match vals with
      | [] => some 0
      | v :: vs => some (maxList v vs)

/-- `compute_schedules(tasks, ranks)`: the forward pass in non-decreasing
rank order, `earliest[ω]`, then the backward pass in the reverse order.
`none` embeds a `KeyError` (including a task id missing from the rank dict,
which Python's `sorted` key function would raise on). -/
def compute_schedules (tasks : List Task) (ranks : Dict) :
    Option (Dict × Dict) := do
  let omega ← maxKeys ranks
  if tasks.all (fun t => (dlookup ranks (taskId t)).isSome) then
    let e1 ← (schedSorted tasks ranks).foldlM (forwardStep tasks) [(0, 0)]
    let eOmega ← omegaEarliest tasks e1
    let l ← (schedSorted tasks ranks).reverse.foldlM
      (backwardStep tasks omega) (dinsert omega eOmega [])
    some (dinsert omega eOmega e1, l)
  else
    none

/-- `calculate_slacks(earliest, latest)`: `latest[v] - earliest[v]` for every
`v` in the union of the key sets.  `none` embeds the `KeyError` raised when a
vertex is present in one dict only. -/
def calculate_slacks (e l : Dict) : Option Dict :=
  let nodes := (dkeys e ++ dkeys l).dedup
  nodes.foldlM (fun s node => do
    let lv ← dlookup l node
    let ev ← dlookup e node
    some (dinsert node (lv - ev) s)) []

/-! ## The scheduling graph at the vertex-id level

The arcs that `build_adjacency_matrix` places, expressed over vertex ids:
`α → t` (weight 0) for each predecessor-free task `t`, `p → t` for each
predecessor `p` of `t` that resolves to a task, and `t → ω` for each task
that never occurs as a predecessor.  The ω vertex is the key
`max({0} ∪ ids) + 1` used by `assign_ranks` and `compute_schedules`. -/
def gEdge (tasks : List Task) (u v : Int) : Prop :=
  (u = 0 ∧ ∃ t ∈ tasks, taskId t = v ∧ taskPreds t = []) ∨
  (∃ t ∈ tasks, taskId t = v ∧ u ∈ taskPreds t ∧ u ∈ taskIds tasks) ∨
  (v = omegaKey tasks ∧ u ∈ taskIds tasks ∧ isNoSucc tasks u = true)

/-- The task set is acyclic: no vertex lies on a directed cycle of the
scheduling graph. -/
def Acyclic (tasks : List Task) : Prop :=
  ¬ ∃ v, Relation.TransGen (gEdge tasks) v v

/-- An arc relation on matrix indices: row `i` holds a weight in column `j`.
Out-of-range reads give the no-arc default, so arcs always point between
genuine positions of a square matrix. -/
def matEdge (M : Matrix) (i j : Nat) : Prop := (cellAt M i j).isSome = true

/-- The matrix graph contains a directed cycle. -/
def HasCycleM (M : Matrix) : Prop :=
  ∃ v, Relation.TransGen (matEdge M) v v

/-- Is `tid` never a predecessor of a task other than itself?  (The wording
of the arc-count claim.) -/
def neverPredOfAnother (tasks : List Task) (tid : Int) : Bool :=
  !(tasks.any (fun t => taskId t != tid && (taskPreds t).contains tid))

/-- Is `tid` never a predecessor of any task (its own record included)?
This is the set `count_arcs` actually subtracts. -/
def neverPredOfAny (tasks : List Task) (tid : Int) : Bool :=
  !(tasks.any (fun t => (taskPreds t).contains tid))

/-- The arc count exactly as the claim words it:
`Σ max(1,|preds|)` plus the number of tasks that never occur as a
predecessor of ANOTHER task. -/
def countArcsClaim (tasks : List Task) : Nat :=
  (tasks.map (fun t => max 1 (taskPreds t).length)).sum +
    ((allTasksSet tasks).filter (fun tid => neverPredOfAnother tasks tid = true)).card

/-- The arc count with the second summand amended to the set the code
uses: tasks that never occur in any predecessor list, their own included. -/
def countArcsAmended (tasks : List Task) : Nat :=
  (tasks.map (fun t => max 1 (taskPreds t).length)).sum +
    ((allTasksSet tasks).filter (fun tid => neverPredOfAny tasks tid = true)).card

/-! ## Concrete inputs used by the claims -/

/-- The concrete scenario of the specification:
`[(1,3,[]), (2,2,[1]), (3,4,[1]), (4,1,[2,3])]`. -/
def scenTasks : List Task := [(1, 3, []), (2, 2, [1]), (3, 4, [1]), (4, 1, [2, 3])]

/-- The rank dict `assign_ranks` computes on the scenario. -/
def scenRanks : Dict := [(0, 0), (1, 1), (2, 2), (3, 2), (4, 3), (5, 4)]

/-- The earliest-date dict of the scenario. -/
def scenEarliest : Dict := [(0, 0), (1, 0), (2, 3), (3, 3), (4, 7), (5, 8)]

/-- The latest-date dict of the scenario: note the absence of the key 0. -/
def scenLatest : Dict := [(5, 8), (4, 7), (3, 3), (2, 5), (1, 0)]

/-- The adjacency matrix of the scenario. -/
def scenMatrix : Matrix :=
  [[none, some 0, none, none, none, none],
   [none, none, some 3, some 3, none, none],
   [none, none, none, none, some 2, none],
   [none, none, none, none, some 4, none],
   [none, none, none, none, none, some 1],
   [none, none, none, none, none, none]]

/-- A task set with an unresolvable predecessor: task 2 references the
absent id 9. -/
def unresTasks : List Task := [(1, 2, []), (2, 3, [9])]

/-- The matrix built for `unresTasks`: the arc `9 → 2` is simply missing. -/
def unresMatrix : Matrix :=
  [[none, some 0, none, none],
   [none, none, none, some 2],
   [none, none, none, some 3],
   [none, none, none, none]]

/-- The two-task cycle of the cycle-detection claim. -/
def cycTasks : List Task := [(1, 1, [2]), (2, 1, [1])]

/-- The matrix built for `cycTasks`. -/
def cycMatrix : Matrix :=
  [[none, none, none, none],
   [none, none, some 1, none],
   [none, some 1, none, none],
   [none, none, none, none]]

/-- The matrix built for the empty task set. -/
def emptyMatrix : Matrix := [[none, none], [none, none]]

/-- An acyclic task set on which the relaxation loop of `assign_ranks`
diverges: the dangling predecessor 2 coincides with the ω key. -/
def divTasks : List Task := [(1, 1, [2])]

/-- A single task with id 2: `build_adjacency_matrix` places its ω arc at
index 2 while `assign_ranks` uses the ω key 3. -/
def gapTasks : List Task := [(2, 1, [])]

/-- The matrix built for `gapTasks`: the ω arc sits at `(2,2)`. -/
def gapMatrix : Matrix :=
  [[none, none, some 0], [none, none, none], [none, none, some 1]]

/-! ## Small helpers for concrete acyclicity -/

/-- A strictly increasing measure transports along transitive closure. -/
theorem transGen_measure_lt {α : Type} {E : α → α → Prop} {f : α → Int}
    (h : ∀ a b, E a b → f a < f b) :
    ∀ a b, Relation.TransGen E a b → f a < f b := by
  intro a b hab
  induction hab with
  | single h1 => exact h _ _ h1
  | tail _ h1 ih => exact lt_trans ih (h _ _ h1)

/-- A relation with a strictly increasing measure has no cycle. -/
theorem acyclic_of_measure {α : Type} (E : α → α → Prop) (f : α → Int)
    (h : ∀ a b, E a b → f a < f b) : ¬ ∃ v, Relation.TransGen E v v := by
  rintro ⟨v, hv⟩
  exact lt_irrefl _ (transGen_measure_lt h v v hv)

/-! ## Dict lemmas -/

theorem dlookup_nil (k : Int) : dlookup [] k = none := rfl

theorem dlookup_cons (p : Int × Int) (d : Dict) (k : Int) :
    dlookup (p :: d) k = if p.1 = k then some p.2 else dlookup d k := by
  by_cases h : p.1 = k
  · simp [dlookup, List.find?_cons_of_pos, h]
  · simp [dlookup, List.find?_cons_of_neg, h]

theorem mem_dkeys {d : Dict} {k : Int} : k ∈ dkeys d ↔ ∃ p ∈ d, p.1 = k := by
  simp [dkeys]

theorem any_key_iff {d : Dict} {k : Int} :
    d.any (fun p => p.1 = k) = true ↔ k ∈ dkeys d := by
  simp [dkeys]

theorem dlookup_isSome_iff {d : Dict} {k : Int} :
    (dlookup d k).isSome = true ↔ k ∈ dkeys d := by
  induction d with
  | nil => simp [dlookup, dkeys]
  | cons p rest ih =>
    rw [dlookup_cons]
    by_cases h : p.1 = k
    · simp [h, dkeys]
    · simp only [if_neg h, ih, dkeys, List.map_cons, List.mem_cons]
      constructor
      · intro hm; exact Or.inr hm
      · rintro (hm | hm)
        · exact absurd hm.symm h
        · exact hm

theorem dlookup_eq_none_iff {d : Dict} {k : Int} :
    dlookup d k = none ↔ k ∉ dkeys d := by
  rw [← dlookup_isSome_iff]
  cases dlookup d k <;> simp

theorem dlookup_map_overwrite (d : Dict) (k v k' : Int) :
    dlookup (d.map (fun p => if p.1 = k then (k, v) else p)) k' =
      if k' = k then (dlookup d k).map (fun _ => v) else dlookup d k' := by
  induction d with
  | nil => simp [dlookup]
  | cons p rest ih =>
    by_cases hp : p.1 = k
    · by_cases hk : k' = k
      · subst hk
        simp [List.map_cons, hp, dlookup_cons]
      · have h1 : ¬ (k = k') := fun h => hk h.symm
        have h2 : ¬ (p.1 = k') := fun h => hk (by rw [← hp, h])
        simp only [List.map_cons, if_pos hp, dlookup_cons, h1, h2, if_neg,
          ite_false, if_neg hk, ih]
    · by_cases hk : k' = k
      · subst hk
        simp only [List.map_cons, if_neg hp, dlookup_cons, ite_true, if_pos,
          ih, if_neg hp]
      · simp only [List.map_cons, if_neg hp, dlookup_cons, ih, if_neg hk]

theorem dlookup_append (d1 d2 : Dict) (k : Int) :
    dlookup (d1 ++ d2) k =
      if k ∈ dkeys d1 then dlookup d1 k else dlookup d2 k := by
  induction d1 with
  | nil => simp [dkeys]
  | cons p rest ih =>
    rw [List.cons_append, dlookup_cons, dlookup_cons]
    by_cases hp : p.1 = k
    · rw [if_pos hp, if_pos hp, if_pos]
      simp [dkeys, hp]
    · rw [if_neg hp, if_neg hp, ih]
      by_cases hm : k ∈ dkeys rest
      · rw [if_pos hm, if_pos (by simp [dkeys] at hm ⊢; exact Or.inr hm)]
      · rw [if_neg hm, if_neg]
        simp only [dkeys, List.map_cons, List.mem_cons]
        rintro (h | h)
        · exact hp h.symm
        · exact hm (by simpa [dkeys] using h)

/-- The master dict-update lemma: looking up after `d[k] = v`. -/
theorem dlookup_dinsert (k v : Int) (d : Dict) (k' : Int) :
    dlookup (dinsert k v d) k' = if k' = k then some v else dlookup d k' := by
  unfold dinsert
  by_cases hany : d.any (fun p => p.1 = k) = true
  · rw [if_pos hany, dlookup_map_overwrite]
    by_cases hk : k' = k
    · rw [if_pos hk, if_pos hk]
      rcases Option.isSome_iff_exists.mp
        (dlookup_isSome_iff.mpr (any_key_iff.mp hany)) with ⟨v0, hv0⟩
      rw [hv0]; rfl
    · rw [if_neg hk, if_neg hk]
  · rw [if_neg hany, dlookup_append]
    have hk : k ∉ dkeys d := fun h => hany (any_key_iff.mpr h)
    by_cases hk' : k' = k
    · subst hk'
      rw [if_neg hk, dlookup_cons, if_pos rfl, if_pos rfl]
    · by_cases hm : k' ∈ dkeys d
      · rw [if_pos hm, if_neg hk']
      · rw [if_neg hm, dlookup_cons, if_neg (fun h => hk' h.symm), dlookup_nil,
          (dlookup_eq_none_iff).mpr hm, if_neg hk']

theorem mem_dkeys_dinsert {k v : Int} {d : Dict} {k' : Int} :
    k' ∈ dkeys (dinsert k v d) ↔ k' = k ∨ k' ∈ dkeys d := by
  rw [← dlookup_isSome_iff, dlookup_dinsert]
  by_cases hk : k' = k
  · simp [hk]
  · simp [hk, dlookup_isSome_iff]

theorem dkeys_dinsert_of_mem {k v : Int} {d : Dict} (h : k ∈ dkeys d) :
    dkeys (dinsert k v d) = dkeys d := by
  unfold dinsert
  rw [if_pos (any_key_iff.mpr h)]
  unfold dkeys
  rw [List.map_map]
  congr 1
  funext p
  by_cases hp : p.1 = k <;> simp [hp]

theorem dkeys_dinsert_of_not_mem {k v : Int} {d : Dict} (h : k ∉ dkeys d) :
    dkeys (dinsert k v d) = dkeys d ++ [k] := by
  unfold dinsert
  rw [if_neg (fun ha => h (any_key_iff.mp ha))]
  simp [dkeys]

/-- With unique keys, lookup is membership. -/
theorem dlookup_eq_some_iff {d : Dict} (hnd : (dkeys d).Nodup) {k v : Int} :
    dlookup d k = some v ↔ (k, v) ∈ d := by
  induction d with
  | nil => simp [dlookup]
  | cons p rest ih =>
    rw [dlookup_cons]
    simp only [dkeys, List.map_cons, List.nodup_cons] at hnd
    by_cases hp : p.1 = k
    · rw [if_pos hp]
      constructor
      · intro h
        injection h with h
        have hpv : (k, v) = p := by
          rw [← hp, ← h]
        rw [hpv]
        exact List.mem_cons_self _ _
      · intro h
        rcases List.mem_cons.mp h with h | h
        · rw [← h]
        · have h1 : k ∉ dkeys rest := by
            rw [← hp]
            exact hnd.1
          exact absurd (mem_dkeys.mpr ⟨(k, v), h, rfl⟩) h1
    · rw [if_neg hp, ih hnd.2]
      constructor
      · intro h
        exact List.mem_cons_of_mem _ h
      · intro h
        rcases List.mem_cons.mp h with h | h
        · exact absurd (congrArg Prod.fst h) (fun hh => hp hh.symm)
        · exact h

theorem sortPairs_perm (d : Dict) : (sortPairs d).Perm d := by
  induction d with
  | nil => simp [sortPairs]
  | cons p rest ih =>
    have hins : ∀ (x : Int × Int) (l : List (Int × Int)),
        (insertPair x l).Perm (x :: l) := by
      intro x l
      induction l with
      | nil => simp [insertPair]
      | cons y ys ihy =>
        unfold insertPair
        by_cases hy : y.1 < x.1
        · rw [if_pos hy]
          exact (ihy.cons y).trans (List.Perm.swap x y ys)
        · rw [if_neg hy]
    exact (hins p (sortPairs rest)).trans (ih.cons p)

theorem dkeys_perm_of_perm {d1 d2 : Dict} (h : d1.Perm d2) :
    (dkeys d1).Perm (dkeys d2) := h.map _

theorem dlookup_of_perm {d1 d2 : Dict} (h : d1.Perm d2)
    (hnd : (dkeys d2).Nodup) (k : Int) : dlookup d1 k = dlookup d2 k := by
  have hnd1 : (dkeys d1).Nodup := ((dkeys_perm_of_perm h).nodup_iff).mpr hnd
  cases hv : dlookup d2 k with
  | some v =>
    exact (dlookup_eq_some_iff hnd1).mpr
      (h.mem_iff.mpr ((dlookup_eq_some_iff hnd).mp hv))
  | none =>
    rw [dlookup_eq_none_iff] at hv ⊢
    exact fun hm => hv ((dkeys_perm_of_perm h).mem_iff.mp hm)

/-! ## Fold and max helpers -/

/-- An invariant carried through an `Option`-valued left fold. -/
theorem foldlM_option_invariant {α β : Type} (f : β → α → Option β)
    (P : β → Prop) (l0 : List α)
    (hf : ∀ b a b', a ∈ l0 → P b → f b a = some b' → P b') :
    ∀ (b b' : β), P b → l0.foldlM f b = some b' → P b' := by
  induction l0 with
  | nil =>
    intro b b' hb h
    simp only [List.foldlM_nil] at h
    injection h with h
    rw [← h]
    exact hb
  | cons a rest ih =>
    intro b b' hb h
    simp only [List.foldlM_cons] at h
    cases hfa : f b a with
    | none => rw [hfa] at h; exact absurd h (by simp)
    | some b1 =>
      rw [hfa] at h
      simp only [Option.bind_eq_bind, Option.some_bind] at h
      exact ih (fun b a b' ha => hf b a b' (List.mem_cons_of_mem _ ha))
        b1 b' (hf b a b1 (List.mem_cons_self _ _) hb hfa) h

theorem maxList_spec (v : Int) (vs : List Int) :
    maxList v vs ∈ v :: vs ∧ ∀ x ∈ v :: vs, x ≤ maxList v vs := by
  induction vs generalizing v with
  | nil =>
    constructor
    · simp [maxList]
    · intro x hx
      simp only [maxList, List.foldl_nil]
      rcases List.mem_cons.mp hx with h | h
      · exact le_of_eq h
      · simp at h
  | cons w ws ih =>
    have hstep : maxList v (w :: ws) = maxList (max v w) ws := by
      simp [maxList]
    have h := ih (max v w)
    constructor
    · rw [hstep]
      rcases List.mem_cons.mp h.1 with hm | hm
      · rw [hm]
        rcases max_choice v w with hc | hc
        · rw [hc]
          exact List.mem_cons_self _ _
        · rw [hc]
          exact List.mem_cons_of_mem _ (List.mem_cons_self _ _)
      · exact List.mem_cons_of_mem _ (List.mem_cons_of_mem _ hm)
    · intro x hx
      rw [hstep]
      rcases List.mem_cons.mp hx with hx | hx
      · rw [hx]
        exact le_trans (le_max_left v w) (h.2 _ (List.mem_cons_self _ _))
      · rcases List.mem_cons.mp hx with hx | hx
        · rw [hx]
          exact le_trans (le_max_right v w) (h.2 _ (List.mem_cons_self _ _))
        · exact h.2 _ (List.mem_cons_of_mem _ hx)

/-- The maximum of a nonempty list is determined by membership and
being an upper bound. -/
theorem maxList_unique {v : Int} {vs : List Int} {m : Int}
    (hm : m ∈ v :: vs) (hub : ∀ x ∈ v :: vs, x ≤ m) : maxList v vs = m := by
  have h := maxList_spec v vs
  exact le_antisymm (hub _ h.1) (h.2 _ hm)

theorem le_maxList_seed (v : Int) (vs : List Int) : v ≤ maxList v vs :=
  (maxList_spec v vs).2 v (List.mem_cons_self _ _)

/-! ## The arc count (C10) -/

theorem count_arcs_foldl (tasks : List Task) (a : Nat) :
    tasks.foldl
        (fun a t => if taskPreds t = [] then a + 1 else a + (taskPreds t).length) a =
      a + (tasks.map (fun t => max 1 (taskPreds t).length)).sum := by
  induction tasks generalizing a with
  | nil => simp
  | cons t rest ih =>
    simp only [List.foldl_cons, List.map_cons, List.sum_cons]
    by_cases hp : taskPreds t = []
    · rw [if_pos hp, ih, hp]
      simp only [List.length_nil]
      omega
    · rw [if_neg hp, ih]
      have h1 : 1 ≤ (taskPreds t).length := List.length_pos.mpr hp
      have h2 : max 1 (taskPreds t).length = (taskPreds t).length :=
        max_eq_right h1
      omega

theorem mem_allTasksSet_fold (tasks : List Task) (s : Finset Int) (x : Int) :
    x ∈ tasks.foldl (fun s t => insert (taskId t) s) s ↔
      x ∈ s ∨ ∃ t ∈ tasks, taskId t = x := by
  induction tasks generalizing s with
  | nil => simp
  | cons t rest ih =>
    simp only [List.foldl_cons, ih, Finset.mem_insert, List.mem_cons]
    constructor
    · rintro ((h | h) | ⟨t', ht', hx⟩)
      · exact Or.inr ⟨t, Or.inl rfl, h.symm⟩
      · exact Or.inl h
      · exact Or.inr ⟨t', Or.inr ht', hx⟩
    · rintro (h | ⟨t', ht' | ht', hx⟩)
      · exact Or.inl (Or.inr h)
      · exact Or.inl (Or.inl (by rw [← hx, ht']))
      · exact Or.inr ⟨t', ht', hx⟩

theorem mem_allTasksSet (tasks : List Task) (x : Int) :
    x ∈ allTasksSet tasks ↔ ∃ t ∈ tasks, taskId t = x := by
  rw [allTasksSet, mem_allTasksSet_fold]
  simp

theorem mem_tasksWithSuccSet_fold (tasks : List Task) (s : Finset Int) (x : Int) :
    x ∈ tasks.foldl (fun s t => s ∪ (taskPreds t).toFinset) s ↔
      x ∈ s ∨ ∃ t ∈ tasks, x ∈ taskPreds t := by
  induction tasks generalizing s with
  | nil => simp
  | cons t rest ih =>
    simp only [List.foldl_cons, ih, Finset.mem_union, List.mem_toFinset,
      List.mem_cons]
    constructor
    · rintro ((h | h) | ⟨t', ht', hx⟩)
      · exact Or.inl h
      · exact Or.inr ⟨t, Or.inl rfl, h⟩
      · exact Or.inr ⟨t', Or.inr ht', hx⟩
    · rintro (h | ⟨t', ht' | ht', hx⟩)
      · exact Or.inl (Or.inl h)
      · exact Or.inl (Or.inr (by rw [← ht']; exact hx))
      · exact Or.inr ⟨t', ht', hx⟩

theorem mem_tasksWithSuccSet (tasks : List Task) (x : Int) :
    x ∈ tasksWithSuccSet tasks ↔ ∃ t ∈ tasks, x ∈ taskPreds t := by
  rw [tasksWithSuccSet, mem_tasksWithSuccSet_fold]
  simp

/-! ## Keys of the rank dict -/

theorem maxKeys_eq_some_of (d : Dict) (m : Int) (hmem : m ∈ dkeys d)
    (hub : ∀ k ∈ dkeys d, k ≤ m) : maxKeys d = some m := by
  unfold maxKeys
  cases hd : dkeys d with
  | nil =>
    rw [hd] at hmem
    simp at hmem
  | cons k0 ks =>
    rw [hd] at hmem hub
    exact congrArg some (maxList_unique hmem hub)

theorem maxKeys_mem_and_ub {d : Dict} {m : Int} (h : maxKeys d = some m) :
    m ∈ dkeys d ∧ ∀ k ∈ dkeys d, k ≤ m := by
  unfold maxKeys at h
  cases hd : dkeys d with
  | nil => rw [hd] at h; exact absurd h (by simp)
  | cons k0 ks =>
    rw [hd] at h
    injection h with h
    rw [← h, ← hd]
    rw [hd]
    exact maxList_spec k0 ks

theorem initRanks_head (tasks : List Task) :
    ∃ rest, initRanks tasks = (0, 0) :: rest := by
  unfold initRanks
  generalize hd : [((0 : Int), (0 : Int))] = d
  have hbase : ∃ rest, d = (0, 0) :: rest := ⟨[], hd.symm⟩
  clear hd
  induction tasks generalizing d with
  | nil => exact hbase
  | cons t ts ih =>
    rw [List.foldl_cons]
    apply ih
    rcases hbase with ⟨rest, hrest⟩
    rw [hrest]
    unfold dinsert
    by_cases hany : (((0, 0) :: rest).any (fun p => p.1 = taskId t)) = true
    · rw [if_pos hany]
      refine ⟨rest.map (fun p => if p.1 = taskId t then (taskId t, 0) else p), ?_⟩
      simp only [List.map_cons]
      congr 1
      by_cases h0 : (0 : Int) = taskId t
      · simp [← h0]
      · simp [h0]
    · rw [if_neg hany]
      exact ⟨rest ++ [(taskId t, 0)], by simp⟩

theorem mem_dkeys_initRanks_fold (tasks : List Task) (d : Dict) (k : Int) :
    k ∈ dkeys (tasks.foldl (fun r t => dinsert (taskId t) 0 r) d) ↔
      k ∈ dkeys d ∨ k ∈ taskIds tasks := by
  induction tasks generalizing d with
  | nil => simp [taskIds]
  | cons t ts ih =>
    rw [List.foldl_cons, ih]
    rw [mem_dkeys_dinsert]
    simp only [taskIds, List.map_cons, List.mem_cons]
    tauto

theorem mem_dkeys_initRanks (tasks : List Task) (k : Int) :
    k ∈ dkeys (initRanks tasks) ↔ k = 0 ∨ k ∈ taskIds tasks := by
  unfold initRanks
  rw [mem_dkeys_initRanks_fold]
  simp [dkeys]

theorem maxKeys_initRanks (tasks : List Task) :
    maxKeys (initRanks tasks) = some (maxList 0 (taskIds tasks)) := by
  apply maxKeys_eq_some_of
  · rw [mem_dkeys_initRanks]
    have h := (maxList_spec 0 (taskIds tasks)).1
    rcases List.mem_cons.mp h with h | h
    · exact Or.inl h
    · exact Or.inr h
  · intro k hk
    rw [mem_dkeys_initRanks] at hk
    rcases hk with hk | hk
    · rw [hk]
      exact le_maxList_seed _ _
    · exact (maxList_spec 0 (taskIds tasks)).2 _ (List.mem_cons_of_mem _ hk)

theorem omegaKey_eq (tasks : List Task) :
    omegaKey tasks = maxList 0 (taskIds tasks) + 1 := by
  unfold omegaKey
  rw [maxKeys_initRanks]
  rfl

theorem omegaKey_pos (tasks : List Task) : 0 < omegaKey tasks := by
  rw [omegaKey_eq]
  have := le_maxList_seed 0 (taskIds tasks)
  omega

theorem lt_omegaKey_of_mem_init {tasks : List Task} {k : Int}
    (h : k ∈ dkeys (initRanks tasks)) : k < omegaKey tasks := by
  rw [omegaKey_eq]
  rw [mem_dkeys_initRanks] at h
  rcases h with h | h
  · rw [h]
    have := le_maxList_seed 0 (taskIds tasks)
    omega
  · have := (maxList_spec 0 (taskIds tasks)).2 _ (List.mem_cons_of_mem _ h)
    omega

theorem taskId_lt_omegaKey {tasks : List Task} {k : Int}
    (h : k ∈ taskIds tasks) : k < omegaKey tasks :=
  lt_omegaKey_of_mem_init ((mem_dkeys_initRanks tasks k).mpr (Or.inr h))

theorem dkeys_ranksStart (tasks : List Task) :
    dkeys (ranksStart tasks) = dkeys (initRanks tasks) ++ [omegaKey tasks] := by
  unfold ranksStart
  exact dkeys_dinsert_of_not_mem
    (fun h => absurd (lt_omegaKey_of_mem_init h) (lt_irrefl _))

theorem mem_dkeys_ranksStart (tasks : List Task) (k : Int) :
    k ∈ dkeys (ranksStart tasks) ↔
      k = omegaKey tasks ∨ k = 0 ∨ k ∈ taskIds tasks := by
  rw [dkeys_ranksStart]
  rw [List.mem_append, mem_dkeys_initRanks]
  simp only [List.mem_singleton]
  tauto

theorem maxKeys_ranksStart (tasks : List Task) :
    maxKeys (ranksStart tasks) = some (omegaKey tasks) := by
  apply maxKeys_eq_some_of
  · rw [mem_dkeys_ranksStart]
    exact Or.inl rfl
  · intro k hk
    rw [mem_dkeys_ranksStart] at hk
    rcases hk with hk | hk
    · exact le_of_eq hk
    · exact le_of_lt (lt_omegaKey_of_mem_init
        ((mem_dkeys_initRanks tasks k).mpr hk))

/-! ## The relaxation loop preserves the key list -/

theorem rankStep_dkeys {r : Dict} {ch : Bool} {t : Task} {r' : Dict}
    {ch' : Bool} (h : rankStep r ch t = some (r', ch')) : dkeys r' = dkeys r := by
  unfold rankStep at h
  by_cases hp : taskPreds t = []
  · rw [if_pos hp] at h
    cases hcur : dlookup r (taskId t) with
    | none => rw [hcur] at h; exact absurd h (by simp)
    | some cur =>
      rw [hcur] at h
      simp only [Option.bind_eq_bind, Option.some_bind] at h
      have hmem : taskId t ∈ dkeys r :=
        dlookup_isSome_iff.mp (by rw [hcur]; rfl)
      by_cases hc : taskId t ≠ 0 ∧ cur = 0
      · rw [if_pos hc] at h
        injection h with h
        injection h with h1 h2
        rw [← h1]
        exact dkeys_dinsert_of_mem hmem
      · rw [if_neg hc] at h
        injection h with h
        injection h with h1 h2
        rw [← h1]
  · rw [if_neg hp] at h
    cases hvals : (taskPreds t).mapM (dlookup r) with
    | none => rw [hvals] at h; exact absurd h (by simp)
    | some vals =>
      rw [hvals] at h
      simp only [Option.bind_eq_bind, Option.some_bind] at h
      cases hcur : dlookup r (taskId t) with
      | none => rw [hcur] at h; exact absurd h (by simp)
      | some cur =>
        rw [hcur] at h
        simp only [Option.bind_eq_bind, Option.some_bind] at h
        have hmem : taskId t ∈ dkeys r :=
          dlookup_isSome_iff.mp (by rw [hcur]; rfl)
        set newRank := (match vals with
          | [] => 0
          | v :: vs => maxList v vs) + 1 with hnr
        by_cases hgt : newRank > cur
        · rw [if_pos hgt] at h
          injection h with h
          injection h with h1 h2
          rw [← h1]
          exact dkeys_dinsert_of_mem hmem
        · rw [if_neg hgt] at h
          injection h with h
          injection h with h1 h2
          rw [← h1]

theorem rankPass_dkeys {tasks : List Task} {om : Int} {r r' : Dict} {ch : Bool}
    (h : rankPass tasks om r = some (r', ch)) : dkeys r' = dkeys r := by
  unfold rankPass at h
  cases hfold : tasks.foldlM
      (fun (st : Dict × Bool) t => rankStep st.1 st.2 t) (r, false) with
  | none => rw [hfold] at h; exact absurd h (by simp)
  | some st1 =>
    rw [hfold] at h
    simp only [Option.bind_eq_bind, Option.some_bind] at h
    have hkeys1 : dkeys st1.1 = dkeys r := by
      have := foldlM_option_invariant
        (fun (st : Dict × Bool) t => rankStep st.1 st.2 t)
        (fun st => dkeys st.1 = dkeys r) tasks
        (fun b a b' _ hb hf => (rankStep_dkeys hf).trans hb)
        (r, false) st1 rfl hfold
      exact this
    cases hoth : (st1.1.filter (fun p => p.1 ≠ om)).map (fun p => p.2) with
    | nil => rw [hoth] at h; exact absurd h (by simp)
    | cons v vs =>
      rw [hoth] at h
      cases hcur : dlookup st1.1 om with
      | none => rw [hcur] at h; exact absurd h (by simp)
      | some curOmega =>
        rw [hcur] at h
        simp only [Option.bind_eq_bind, Option.some_bind] at h
        have hmem : om ∈ dkeys st1.1 :=
          dlookup_isSome_iff.mp (by rw [hcur]; rfl)
        by_cases hne : maxList v vs + 1 ≠ curOmega
        · rw [if_pos hne] at h
          injection h with h
          injection h with h1 h2
          rw [← h1, dkeys_dinsert_of_mem hmem, hkeys1]
        · rw [if_neg hne] at h
          injection h with h
          injection h with h1 h2
          rw [← h1, hkeys1]

theorem rankLoop_dkeys {tasks : List Task} {om : Int} {fuel : Nat} {r r' : Dict}
    (h : rankLoop tasks om fuel r = some r') : dkeys r' = dkeys r := by
  induction fuel generalizing r with
  | zero => exact absurd h (by simp [rankLoop])
  | succ fuel ih =>
    unfold rankLoop at h
    cases hpass : rankPass tasks om r with
    | none => rw [hpass] at h; exact absurd h (by simp)
    | some st =>
      rw [hpass] at h
      simp only [Option.bind_eq_bind, Option.some_bind] at h
      by_cases hch : st.2 = true
      · rw [if_pos hch] at h
        exact (ih h).trans (rankPass_dkeys (by rw [hpass]))
      · rw [if_neg hch] at h
        injection h with h
        rw [← h]
        exact rankPass_dkeys (by rw [hpass])

theorem assign_ranks_some {tasks : List Task} {rk : Dict}
    (h : assign_ranks tasks = some rk) :
    ∃ rfix, rankLoop tasks (omegaKey tasks) (count_vertices tasks)
        (ranksStart tasks) = some rfix ∧ rk = sortPairs rfix := by
  unfold assign_ranks at h
  cases hl : rankLoop tasks (omegaKey tasks) (count_vertices tasks)
      (ranksStart tasks) with
  | none => rw [hl] at h; exact absurd h (by simp)
  | some rfix =>
    rw [hl] at h
    simp only [Option.map_some'] at h
    injection h with h
    exact ⟨rfix, rfl, h.symm⟩

theorem dkeys_assign_ranks_perm {tasks : List Task} {rk : Dict}
    (h : assign_ranks tasks = some rk) :
    (dkeys rk).Perm (dkeys (ranksStart tasks)) := by
  rcases assign_ranks_some h with ⟨rfix, hl, hs⟩
  rw [hs, ← rankLoop_dkeys hl]
  exact dkeys_perm_of_perm (sortPairs_perm rfix)

theorem mem_dkeys_assign_ranks {tasks : List Task} {rk : Dict}
    (h : assign_ranks tasks = some rk) (k : Int) :
    k ∈ dkeys rk ↔ k = omegaKey tasks ∨ k = 0 ∨ k ∈ taskIds tasks := by
  rw [(dkeys_assign_ranks_perm h).mem_iff]
  exact mem_dkeys_ranksStart tasks k

theorem maxKeys_assign_ranks {tasks : List Task} {rk : Dict}
    (h : assign_ranks tasks = some rk) :
    maxKeys rk = some (omegaKey tasks) := by
  apply maxKeys_eq_some_of
  · rw [mem_dkeys_assign_ranks h]
    exact Or.inl rfl
  · intro k hk
    rw [mem_dkeys_assign_ranks h] at hk
    rcases hk with hk | hk
    · exact le_of_eq hk
    · exact le_of_lt (lt_omegaKey_of_mem_init
        ((mem_dkeys_initRanks tasks k).mpr hk))

/-! ## The sorted task list and the schedule passes -/

theorem insertByKey_perm (key : Task → Int) (x : Task) (l : List Task) :
    (insertByKey key x l).Perm (x :: l) := by
  induction l with
  | nil => simp [insertByKey]
  | cons y ys ih =>
    unfold insertByKey
    by_cases hy : key y < key x
    · rw [if_pos hy]
      exact (ih.cons y).trans (List.Perm.swap x y ys)
    · rw [if_neg hy]

theorem sortByKey_perm (key : Task → Int) (l : List Task) :
    (sortByKey key l).Perm l := by
  induction l with
  | nil => simp [sortByKey]
  | cons x xs ih =>
    exact (insertByKey_perm key x (sortByKey key xs)).trans (ih.cons x)

theorem mem_schedSorted {tasks : List Task} {ranks : Dict} {t : Task} :
    t ∈ schedSorted tasks ranks ↔ t ∈ tasks :=
  (sortByKey_perm _ tasks).mem_iff

/-- A forward-pass step either keeps the dict or writes the task's own id. -/
theorem forwardStep_cases {tasks : List Task} {e : Dict} {t : Task} {e' : Dict}
    (h : forwardStep tasks e t = some e') :
    e' = e ∨ ∃ v, e' = dinsert (taskId t) v e := by
  unfold forwardStep at h
  by_cases hp : taskPreds t = []
  · rw [if_pos hp] at h
    by_cases hid : taskId t ≠ 0
    · rw [if_pos hid] at h
      cases h0 : dlookup e 0 with
      | none => rw [h0] at h; exact absurd h (by simp)
      | some e0 =>
        rw [h0] at h
        simp only [Option.bind_eq_bind, Option.some_bind] at h
        injection h with h
        exact Or.inr ⟨e0, h.symm⟩
    · rw [if_neg hid] at h
      injection h with h
      exact Or.inl h.symm
  · rw [if_neg hp] at h
    cases hv : (taskPreds t).mapM
        (fun p => (dlookup e p).map (fun v => v + get_duration p tasks)) with
    | none => rw [hv] at h; exact absurd h (by simp)
    | some vals =>
      rw [hv] at h
      simp only [Option.bind_eq_bind, Option.some_bind] at h
      cases vals with
      | nil =>
        injection h with h
        exact Or.inl h.symm
      | cons v vs =>
        injection h with h
        exact Or.inr ⟨maxList v vs, h.symm⟩

/-- A backward-pass step either keeps the dict or writes the task's own id. -/
theorem backwardStep_cases {tasks : List Task} {om : Int} {l : Dict} {t : Task}
    {l' : Dict} (h : backwardStep tasks om l t = some l') :
    l' = l ∨ ∃ v, l' = dinsert (taskId t) v l := by
  unfold backwardStep at h
  cases hs : succsOf tasks (taskId t) with
  | nil =>
    rw [hs] at h
    by_cases hid : taskId t ≠ om
    · rw [if_pos hid] at h
      cases ho : dlookup l om with
      | none => rw [ho] at h; exact absurd h (by simp)
      | some lo =>
        rw [ho] at h
        simp only [Option.bind_eq_bind, Option.some_bind] at h
        injection h with h
        exact Or.inr ⟨lo - taskDur t, h.symm⟩
    · rw [if_neg hid] at h
      injection h with h
      exact Or.inl h.symm
  | cons s ss =>
    rw [hs] at h
    dsimp only at h
    cases hv : (s :: ss).mapM (dlookup l) with
    | none => rw [hv] at h; exact absurd h (by simp)
    | some vals =>
      rw [hv] at h
      simp only [Option.bind_eq_bind, Option.some_bind] at h
      cases vals with
      | nil =>
        injection h with h
        exact Or.inl h.symm
      | cons v vs =>
        injection h with h
        exact Or.inr ⟨minList v vs - taskDur t, h.symm⟩

/-! ## Kahn's algorithm: shape of the matrix and one pop -/

theorem getD_set_self (l : List Int) (i : Nat) (a : Int) (h : i < l.length) :
    (l.set i a).getD i 0 = a := by
  simp [List.getD_eq_getElem?_getD, List.getElem?_set_self, h]

theorem getD_set_ne (l : List Int) {i j : Nat} (a : Int) (h : i ≠ j) :
    (l.set i a).getD j 0 = l.getD j 0 := by
  simp [List.getD_eq_getElem?_getD, List.getElem?_set_ne h]

/-- A square matrix: every row is as long as the column of rows. -/
def IsSquare (M : Matrix) : Prop := ∀ row ∈ M, row.length = M.length

theorem matEdge_lt {M : Matrix} (hsq : IsSquare M) {u v : Nat}
    (h : matEdge M u v) : u < M.length ∧ v < M.length := by
  unfold matEdge cellAt at h
  by_cases hu : u < M.length
  · refine ⟨hu, ?_⟩
    have hrow : M.getD u [] ∈ M := by
      rw [List.getD_eq_getElem?_getD, List.getElem?_eq_getElem hu]
      exact List.getElem_mem _
    have hlen : (M.getD u []).length = M.length := hsq _ hrow
    by_cases hv : v < (M.getD u []).length
    · omega
    · rw [List.getD_eq_getElem?_getD (M.getD u []),
        List.getElem?_eq_none (by omega)] at h
      simp at h
  · rw [List.getD_eq_getElem?_getD M, List.getElem?_eq_none (by omega : M.length ≤ u)] at h
    simp at h

theorem pyIdx_lt {n : Nat} {i : Int} {r : Nat} (h : pyIdx n i = some r) :
    r < n := by
  unfold pyIdx at h
  by_cases h1 : 0 ≤ i ∧ i < (n : Int)
  · rw [if_pos h1] at h
    injection h with h
    omega
  · rw [if_neg h1] at h
    by_cases h2 : -(n : Int) ≤ i ∧ i < 0
    · rw [if_pos h2] at h
      injection h with h
      omega
    · rw [if_neg h2] at h
      exact absurd h (by simp)

theorem setCell_shape {X : Matrix} {i j : Int} {v : Cell} {X' : Matrix}
    {n : Nat} (h : setCell X i j v = some X')
    (hX : X.length = n ∧ ∀ row ∈ X, row.length = n) :
    X'.length = n ∧ ∀ row ∈ X', row.length = n := by
  unfold setCell at h
  cases hr : pyIdx X.length i with
  | none => rw [hr] at h; exact absurd h (by simp)
  | some r =>
    rw [hr] at h
    simp only [Option.bind_eq_bind, Option.some_bind] at h
    cases hc : pyIdx (X.getD r []).length j with
    | none => rw [hc] at h; exact absurd h (by simp)
    | some c =>
      rw [hc] at h
      simp only [Option.bind_eq_bind, Option.some_bind] at h
      injection h with h
      have hrlt : r < X.length := pyIdx_lt hr
      have hrow : X.getD r [] ∈ X := by
        rw [List.getD_eq_getElem?_getD, List.getElem?_eq_getElem hrlt]
        exact List.getElem_mem _
      constructor
      · rw [← h]
        simp [hX.1]
      · intro row hmem
        rw [← h] at hmem
        rcases List.mem_or_eq_of_mem_set hmem with hm | hm
        · exact hX.2 _ hm
        · rw [hm, List.length_set]
          exact hX.2 _ hrow

theorem build_shape {tasks : List Task} {M : Matrix}
    (h : build_adjacency_matrix tasks = some M) :
    M.length = count_vertices tasks ∧ IsSquare M := by
  have hn : count_vertices tasks = tasks.length + 2 := rfl
  unfold build_adjacency_matrix at h
  set n := tasks.length + 2 with hndef
  set P := fun (X : Matrix) => X.length = n ∧ ∀ row ∈ X, row.length = n
    with hP
  have hbase : P (List.replicate n (List.replicate n (none : Cell))) := by
    constructor
    · simp
    · intro row hm
      rw [List.eq_of_mem_replicate hm]
      simp
  cases hf1 : tasks.foldlM
      (fun M t =>
        if taskPreds t = [] then setCell M 0 (taskId t) (some 0)
        else
          (taskPreds t).foldlM
            (fun M' p =>
              match findDur p tasks with
              | some d => setCell M' p (taskId t) (some d)
              | none => some M') M)
      (List.replicate n (List.replicate n (none : Cell))) with
  | none =>
    rw [hf1] at h
    exact absurd h (by simp)
  | some M1 =>
    rw [hf1] at h
    simp only [Option.bind_eq_bind, Option.some_bind] at h
    have hPM1 : P M1 := by
      apply foldlM_option_invariant _ P tasks ?_ _ M1 hbase hf1
      intro X t X' _ hPX hstep
      by_cases hp : taskPreds t = []
      · rw [if_pos hp] at hstep
        exact setCell_shape hstep hPX
      · rw [if_neg hp] at hstep
        apply foldlM_option_invariant _ P (taskPreds t) ?_ X X' hPX hstep
        intro Y p Y' _ hPY hstep'
        cases hd : findDur p tasks with
        | none =>
          rw [hd] at hstep'
          injection hstep' with hstep'
          rw [← hstep']
          exact hPY
        | some d =>
          rw [hd] at hstep'
          exact setCell_shape hstep' hPY
    have hPM : P M := by
      apply foldlM_option_invariant _ P tasks ?_ M1 M hPM1 h
      intro X t X' _ hPX hstep
      by_cases hns : isNoSucc tasks (taskId t) = true
      · rw [if_pos hns] at hstep
        exact setCell_shape hstep hPX
      · rw [if_neg hns] at hstep
        injection hstep with hstep
        rw [← hstep]
        exact hPX
    refine ⟨by rw [hPM.1, hn], ?_⟩
    intro row hm
    rw [hPM.2 _ hm, hPM.1]

/-- The static in-degree of column `j`. -/
def indeg0 (M : Matrix) (j : Nat) : Nat :=
  (List.range M.length).countP (fun i => (cellAt M i j).isSome)

theorem initInDegree_length (M : Matrix) :
    (initInDegree M).length = M.length := by
  simp [initInDegree]

theorem initInDegree_getD {M : Matrix} {j : Nat} (h : j < M.length) :
    (initInDegree M).getD j 0 = (indeg0 M j : Int) := by
  unfold initInDegree indeg0
  rw [List.getD_eq_getElem?_getD, List.getElem?_map]
  rw [List.getElem?_range h]
  rfl

theorem indeg0_pos_of_edge {M : Matrix} (hsq : IsSquare M) {w j : Nat}
    (h : matEdge M w j) : 0 < indeg0 M j := by
  unfold indeg0
  rw [List.countP_pos_iff]
  exact ⟨w, List.mem_range.mpr (matEdge_lt hsq h).1, by
    unfold matEdge at h
    simpa using h⟩

/-- What one pop of the inner loop does: each out-neighbour's in-degree
drops by one, and exactly the out-neighbours whose in-degree was one are
collected, in index order. -/
theorem procFold_spec (M : Matrix) (u : Nat) (L : List Nat) :
    ∀ (indeg : List Int) (app : List Nat), L.Nodup →
      (∀ v ∈ L, v < indeg.length) →
      (procFold M u L indeg app).1.length = indeg.length ∧
      (∀ x, (procFold M u L indeg app).1.getD x 0 =
        if x ∈ L ∧ (cellAt M u x).isSome then indeg.getD x 0 - 1
        else indeg.getD x 0) ∧
      (procFold M u L indeg app).2 =
        app ++ L.filter (fun v => (cellAt M u v).isSome &&
          (indeg.getD v 0 == 1)) := by
  induction L with
  | nil =>
    intro indeg app _ _
    refine ⟨rfl, ?_, by simp [procFold]⟩
    intro x
    simp [procFold]
  | cons v0 L' ih =>
    intro indeg app hnd hlt
    have hv0 : v0 < indeg.length := hlt v0 (List.mem_cons_self _ _)
    have hnd' : L'.Nodup := (List.nodup_cons.mp hnd).2
    have hv0nm : v0 ∉ L' := (List.nodup_cons.mp hnd).1
    by_cases he : (cellAt M u v0).isSome = true
    · have hstep : procFold M u (v0 :: L') indeg app =
          procFold M u L'
            (indeg.set v0 (indeg.getD v0 0 - 1))
            (if indeg.getD v0 0 - 1 = 0 then app ++ [v0] else app) := by
        unfold procFold
        rw [List.foldl_cons]
        simp only [he, if_true]
        by_cases hd : indeg.getD v0 0 - 1 = 0
        · rw [if_pos hd, if_pos hd]
        · rw [if_neg hd, if_neg hd]
      set ind1 := indeg.set v0 (indeg.getD v0 0 - 1) with hind1
      set app1 := (if indeg.getD v0 0 - 1 = 0 then app ++ [v0] else app)
        with happ1
      have hlen1 : ind1.length = indeg.length := by simp [hind1]
      have ihh := ih ind1 app1 hnd' (by
        intro v hv
        rw [hlen1]
        exact hlt v (List.mem_cons_of_mem _ hv))
      refine ⟨?_, ?_, ?_⟩
      · rw [hstep, ihh.1, hlen1]
      · intro x
        rw [hstep, ihh.2.1 x]
        by_cases hx : x = v0
        · subst hx
          rw [if_neg (fun hc => hv0nm hc.1), if_pos ⟨List.mem_cons_self _ _, he⟩]
          rw [hind1, getD_set_self _ _ _ hv0]
        · have hget : ind1.getD x 0 = indeg.getD x 0 :=
            getD_set_ne _ _ (fun hc => hx hc.symm)
          rw [hget]
          apply if_congr ?_ rfl rfl
          simp only [List.mem_cons]
          constructor
          · rintro ⟨hm, hsome⟩
            exact ⟨Or.inr hm, hsome⟩
          · rintro ⟨hm | hm, hsome⟩
            · exact absurd hm hx
            · exact ⟨hm, hsome⟩
      · rw [hstep, ihh.2.2]
        have hfilter : L'.filter (fun v => (cellAt M u v).isSome &&
            (ind1.getD v 0 == 1)) =
            L'.filter (fun v => (cellAt M u v).isSome &&
              (indeg.getD v 0 == 1)) := by
          apply List.filter_congr
          intro v hv
          have : ind1.getD v 0 = indeg.getD v 0 :=
            getD_set_ne _ _ (fun hc => hv0nm (hc ▸ hv))
          rw [this]
        rw [hfilter, happ1]
        rw [List.filter_cons]
        have hd1 : (indeg.getD v0 0 - 1 = 0) ↔ (indeg.getD v0 0 == 1) = true := by
          constructor
          · intro hh
            exact beq_iff_eq.mpr (by omega)
          · intro hh
            have := beq_iff_eq.mp hh
            omega
        by_cases hd : indeg.getD v0 0 - 1 = 0
        · rw [if_pos hd]
          rw [if_pos (by rw [he, hd1.mp hd]; rfl)]
          simp
        · rw [if_neg hd]
          rw [if_neg (by
            simp only [he, Bool.true_and]
            intro hc
            exact hd (hd1.mpr hc))]
    · have hstep : procFold M u (v0 :: L') indeg app =
          procFold M u L' indeg app := by
        unfold procFold
        rw [List.foldl_cons]
        simp [he]
      have ihh := ih indeg app hnd' (by
        intro v hv
        exact hlt v (List.mem_cons_of_mem _ hv))
      refine ⟨by rw [hstep]; exact ihh.1, ?_, ?_⟩
      · intro x
        rw [hstep, ihh.2.1 x]
        by_cases hx : x = v0
        · subst hx
          rw [if_neg (fun hc => hv0nm hc.1), if_neg (fun hc => he hc.2)]
        · apply if_congr ?_ rfl rfl
          simp only [List.mem_cons]
          constructor
          · rintro ⟨hm, hsome⟩
            exact ⟨Or.inr hm, hsome⟩
          · rintro ⟨hm | hm, hsome⟩
            · exact absurd hm hx
            · exact ⟨hm, hsome⟩
      · rw [hstep, ihh.2.2]
        rw [List.filter_cons]
        rw [if_neg (by simp [he])]

/-! ## Kahn's algorithm: the loop invariant -/

/-- The invariant of Kahn's work-queue loop.  `P` is the list of popped
vertices in pop order: in-degrees are the static ones minus arcs from
popped vertices; every vertex is enqueued at most once; every enqueued
vertex has all its in-neighbours popped (popped ones: popped strictly
earlier); every unreached vertex still has positive in-degree. -/
def kahnInv (M : Matrix) (indeg : List Int) (queue : List Nat)
    (P : List Nat) : Prop :=
  indeg.length = M.length ∧
  (∀ j, j < M.length →
    indeg.getD j 0 = (indeg0 M j : Int) -
      (P.countP (fun u => (cellAt M u j).isSome) : Int)) ∧
  (queue ++ P).Nodup ∧
  (∀ v ∈ queue ++ P, v < M.length) ∧
  (∀ v ∈ queue, ∀ u, matEdge M u v → u ∈ P) ∧
  (∀ i, i < P.length → ∀ u, matEdge M u (P.getD i 0) → u ∈ P.take i) ∧
  (∀ v, v < M.length → v ∉ queue → v ∉ P → 0 < indeg.getD v 0)

theorem kahnInv_init (M : Matrix) (hsq : IsSquare M) :
    kahnInv M (initInDegree M)
      ((List.range M.length).filter
        (fun i => (initInDegree M).getD i 0 = 0)) [] := by
  refine ⟨initInDegree_length M, ?_, ?_, ?_, ?_, ?_, ?_⟩
  · intro j hj
    rw [initInDegree_getD hj]
    simp
  · rw [List.append_nil]
    exact (List.nodup_range _).filter _
  · intro v hv
    rw [List.append_nil, List.mem_filter] at hv
    exact List.mem_range.mp hv.1
  · intro v hv u hu
    rw [List.mem_filter] at hv
    have hvlt : v < M.length := List.mem_range.mp hv.1
    have h0 : (initInDegree M).getD v 0 = 0 := by
      have := hv.2
      simpa using this
    rw [initInDegree_getD hvlt] at h0
    have hpos := indeg0_pos_of_edge hsq hu
    omega
  · intro i hi
    simp at hi
  · intro v hv hvq _
    have h0 : ¬ ((initInDegree M).getD v 0 = 0) := by
      intro hc
      exact hvq (List.mem_filter.mpr ⟨List.mem_range.mpr hv, by simpa using hc⟩)
    rw [initInDegree_getD hv] at h0 ⊢
    omega

theorem kahnInv_step {M : Matrix} (hsq : IsSquare M) {indeg : List Int}
    {u : Nat} {rest P : List Nat} (hInv : kahnInv M indeg (u :: rest) P) :
    kahnInv M (processNeighbors M indeg u).1
      (rest ++ (processNeighbors M indeg u).2) (P ++ [u]) := by
  obtain ⟨ha, hb, hc, hd, he, hf, hg⟩ := hInv
  have hspec := procFold_spec M u (List.range M.length) indeg []
    (List.nodup_range _)
    (fun v hv => by rw [ha]; exact List.mem_range.mp hv)
  rw [show procFold M u (List.range M.length) indeg [] =
      processNeighbors M indeg u from rfl] at hspec
  obtain ⟨hS1, hS2, hS3⟩ := hspec
  rw [List.nil_append] at hS3
  set ind' := (processNeighbors M indeg u).1 with hind'
  set app := (processNeighbors M indeg u).2 with happ
  have hult : u < M.length := hd u (List.mem_cons_self _ _)
  have hndup := hc
  rw [List.cons_append, List.nodup_cons] at hndup
  have hurp : u ∉ rest ++ P := hndup.1
  have hrpnd : (rest ++ P).Nodup := hndup.2
  have huP : u ∉ P := fun hm => hurp (List.mem_append_right _ hm)
  have hur : u ∉ rest := fun hm => hurp (List.mem_append_left _ hm)
  have happ_mem : ∀ v, v ∈ app ↔
      v < M.length ∧ matEdge M u v ∧ indeg.getD v 0 = 1 := by
    intro v
    rw [hS3, List.mem_filter, List.mem_range]
    unfold matEdge
    constructor
    · rintro ⟨h1, h2⟩
      simp only [Bool.and_eq_true, beq_iff_eq] at h2
      exact ⟨h1, h2.1, h2.2⟩
    · rintro ⟨h1, h2, h3⟩
      refine ⟨h1, ?_⟩
      simp only [Bool.and_eq_true, beq_iff_eq]
      exact ⟨h2, h3⟩
  have hmemP_edge : ∀ v ∈ P, ∀ w, matEdge M w v → w ∈ P := by
    intro v hv w hw
    rcases List.getElem_of_mem hv with ⟨i, hilt, hiv⟩
    have hgd : P.getD i 0 = v := by
      rw [List.getD_eq_getElem?_getD, List.getElem?_eq_getElem hilt, hiv]
      rfl
    have := hf i hilt w (by rw [hgd]; exact hw)
    exact List.mem_of_mem_take this
  have happ_new : ∀ v ∈ app, v ∉ rest ∧ v ∉ P ∧ v ≠ u := by
    intro v hv
    obtain ⟨hvlt, hedge, hval⟩ := (happ_mem v).mp hv
    refine ⟨?_, ?_, ?_⟩
    · intro hm
      exact huP (he v (List.mem_cons_of_mem _ hm) u hedge)
    · intro hm
      exact huP (hmemP_edge v hm u hedge)
    · intro hm
      rw [hm] at hedge
      exact huP (he u (List.mem_cons_self _ _) u hedge)
  have happ_lt : ∀ v ∈ app, v < M.length := fun v hv =>
    ((happ_mem v).mp hv).1
  refine ⟨?_, ?_, ?_, ?_, ?_, ?_, ?_⟩
  · rw [hS1, ha]
  · intro j hj
    have h2 := hS2 j
    have hcount : (List.countP (fun w => (cellAt M w j).isSome) (P ++ [u])) =
        (List.countP (fun w => (cellAt M w j).isSome) P) +
          (if (cellAt M u j).isSome = true then 1 else 0) := by
      rw [List.countP_append]
      by_cases hcc : (cellAt M u j).isSome = true
      · simp [List.countP_cons, hcc]
      · simp [List.countP_cons, hcc]
    by_cases hedge : matEdge M u j
    · rw [if_pos ⟨List.mem_range.mpr hj, hedge⟩] at h2
      have hcond : (cellAt M u j).isSome = true := hedge
      rw [h2, hb j hj, hcount, if_pos hcond]
      push_cast
      ring
    · rw [if_neg (fun hcc => hedge hcc.2)] at h2
      have hcond : ¬ ((cellAt M u j).isSome = true) := hedge
      rw [h2, hb j hj, hcount, if_neg hcond]
      push_cast
      ring
  · have happnd : app.Nodup := by
      rw [hS3]
      exact (List.nodup_range _).filter _
    rw [List.nodup_append]
    refine ⟨?_, ?_, ?_⟩
    · rw [List.nodup_append]
      have hrest : rest.Nodup := ((List.nodup_append).mp hrpnd).1
      refine ⟨hrest, happnd, ?_⟩
      intro a haR hA
      exact (happ_new a hA).1 haR
    · rw [List.nodup_append]
      have hP : P.Nodup := ((List.nodup_append).mp hrpnd).2.1
      refine ⟨hP, List.nodup_singleton _, ?_⟩
      intro a haP hA
      rw [List.mem_singleton] at hA
      rw [hA] at haP
      exact huP haP
    · intro a haRA
      rcases List.mem_append.mp haRA with haR | haA
      · intro hm
        rcases List.mem_append.mp hm with hm | hm
        · exact ((List.nodup_append).mp hrpnd).2.2 haR hm
        · rw [List.mem_singleton] at hm
          rw [hm] at haR
          exact hur haR
      · intro hm
        rcases List.mem_append.mp hm with hm | hm
        · exact (happ_new a haA).2.1 hm
        · rw [List.mem_singleton] at hm
          exact (happ_new a haA).2.2 hm
  · intro v hv
    rcases List.mem_append.mp hv with hv | hv
    · rcases List.mem_append.mp hv with hv | hv
      · exact hd v (List.mem_cons_of_mem _ (List.mem_append_left _ hv))
      · exact happ_lt v hv
    · rcases List.mem_append.mp hv with hv | hv
      · exact hd v (List.mem_cons_of_mem _ (List.mem_append_right _ hv))
      · rw [List.mem_singleton] at hv
        rw [hv]
        exact hult
  · intro v hv w hw
    rcases List.mem_append.mp hv with hv | hv
    · exact List.mem_append_left _ (he v (List.mem_cons_of_mem _ hv) w hw)
    · obtain ⟨hvlt, hedge, hval⟩ := (happ_mem v).mp hv
      have hwlt := (matEdge_lt hsq hw).1
      have hcount : (P.countP (fun w => (cellAt M w v).isSome) : Int) + 1 =
          (indeg0 M v : Int) := by
        have := hb v hvlt
        rw [hval] at this
        omega
      set pred := fun w => (cellAt M w v).isSome with hpred
      have hPnd : P.Nodup := ((List.nodup_append).mp hrpnd).2.1
      have hcardA : ((List.range M.length).filter pred).toFinset.card =
          indeg0 M v := by
        rw [List.toFinset_card_of_nodup ((List.nodup_range _).filter _)]
        rw [← List.countP_eq_length_filter]
        rfl
      have hcardB : (insert u (P.filter pred).toFinset).card =
          P.countP pred + 1 := by
        rw [Finset.card_insert_of_not_mem (by
          rw [List.mem_toFinset, List.mem_filter]
          intro hcc
          exact huP hcc.1)]
        rw [List.toFinset_card_of_nodup (hPnd.filter _)]
        rw [← List.countP_eq_length_filter]
      have hsub : insert u (P.filter pred).toFinset ⊆
          ((List.range M.length).filter pred).toFinset := by
        intro x hx
        rw [Finset.mem_insert] at hx
        rw [List.mem_toFinset, List.mem_filter]
        rcases hx with hx | hx
        · subst hx
          exact ⟨List.mem_range.mpr hult, hedge⟩
        · rw [List.mem_toFinset, List.mem_filter] at hx
          exact ⟨List.mem_range.mpr (hd x (List.mem_cons_of_mem _
            (List.mem_append_right _ hx.1))), hx.2⟩
      have heq : insert u (P.filter pred).toFinset =
          ((List.range M.length).filter pred).toFinset := by
        apply Finset.eq_of_subset_of_card_le hsub
        rw [hcardA, hcardB]
        omega
      have hwA : w ∈ ((List.range M.length).filter pred).toFinset := by
        rw [List.mem_toFinset, List.mem_filter]
        exact ⟨List.mem_range.mpr hwlt, hw⟩
      rw [← heq, Finset.mem_insert] at hwA
      rcases hwA with hwA | hwA
      · rw [hwA]
        exact List.mem_append_right _ (List.mem_singleton.mpr rfl)
      · rw [List.mem_toFinset, List.mem_filter] at hwA
        exact List.mem_append_left _ hwA.1
  · intro i hi w hw
    rw [List.length_append, List.length_singleton] at hi
    by_cases hip : i < P.length
    · rw [List.getD_append _ _ _ _ hip] at hw
      rw [List.take_append_of_le_length (le_of_lt hip)]
      exact hf i hip w hw
    · have hieq : i = P.length := by omega
      subst hieq
      rw [show (P ++ [u]).getD P.length 0 = u from by
        rw [List.getD_eq_getElem?_getD, List.getElem?_append_right (le_refl _)]
        simp] at hw
      rw [List.take_append_of_le_length (le_refl _), List.take_length]
      exact he u (List.mem_cons_self _ _) w hw
  · intro v hvlt hvq hvp
    have hvne : v ≠ u := fun hc => hvp (by
      rw [hc]
      exact List.mem_append_right _ (List.mem_singleton.mpr rfl))
    have hvrest : v ∉ rest := fun hc => hvq (List.mem_append_left _ hc)
    have hvapp : v ∉ app := fun hc => hvq (List.mem_append_right _ hc)
    have hvP : v ∉ P := fun hc => hvp (List.mem_append_left _ hc)
    have hold : 0 < indeg.getD v 0 := hg v hvlt
      (fun hc => (List.mem_cons.mp hc).elim (fun h1 => hvne h1) hvrest) hvP
    have h2 := hS2 v
    by_cases hedge : matEdge M u v
    · rw [if_pos ⟨List.mem_range.mpr hvlt, by exact hedge⟩] at h2
      have hne1 : indeg.getD v 0 ≠ 1 := by
        intro hc
        exact hvapp ((happ_mem v).mpr ⟨hvlt, hedge, hc⟩)
      rw [h2]
      omega
    · rw [if_neg (fun hcc => hedge hcc.2)] at h2
      rw [h2]
      exact hold

/-! ## Kahn's algorithm: termination and correctness -/

theorem kahnInv_length_le {M : Matrix} {indeg : List Int} {queue P : List Nat}
    (hInv : kahnInv M indeg queue P) :
    queue.length + P.length ≤ M.length := by
  obtain ⟨_, _, hc, hd, _, _, _⟩ := hInv
  have h1 : (queue ++ P).toFinset.card = (queue ++ P).length :=
    List.toFinset_card_of_nodup hc
  have h2 : (queue ++ P).toFinset ⊆ Finset.range M.length := by
    intro x hx
    rw [List.mem_toFinset] at hx
    exact Finset.mem_range.mpr (hd x hx)
  have h3 := Finset.card_le_card h2
  rw [h1, Finset.card_range, List.length_append] at h3
  exact h3

theorem kahnLoop_final {M : Matrix} (hsq : IsSquare M) :
    ∀ (fuel : Nat) (indeg : List Int) (queue P : List Nat),
      kahnInv M indeg queue P → M.length ≤ fuel + P.length →
      ∃ indeg' P', kahnInv M indeg' [] P' ∧
        kahnLoop M fuel indeg queue P.length = P'.length := by
  intro fuel
  induction fuel with
  | zero =>
    intro indeg queue P hInv hle
    cases queue with
    | nil => exact ⟨indeg, P, hInv, rfl⟩
    | cons u rest =>
      exfalso
      have h1 := kahnInv_length_le hInv
      rw [List.length_cons] at h1
      omega
  | succ fuel ih =>
    intro indeg queue P hInv hle
    cases queue with
    | nil => exact ⟨indeg, P, hInv, rfl⟩
    | cons u rest =>
      have hstep := kahnInv_step hsq hInv
      obtain ⟨indeg', P', hInv', hcount⟩ :=
        ih (processNeighbors M indeg u).1
          (rest ++ (processNeighbors M indeg u).2) (P ++ [u]) hstep
          (by rw [List.length_append, List.length_singleton]; omega)
      refine ⟨indeg', P', hInv', ?_⟩
      rw [List.length_append, List.length_singleton] at hcount
      exact hcount

/-- Every vertex of a nonempty set in which each element has an in-neighbour
inside the set leads to a directed cycle. -/
theorem exists_cycle_of_closed {α : Type} (E : α → α → Prop) (S : Finset α)
    (hne : S.Nonempty) (hcl : ∀ v ∈ S, ∃ u ∈ S, E u v) :
    ∃ w, Relation.TransGen E w w := by
  classical
  have hstep : ∀ x : {v // v ∈ S}, ∃ y : {v // v ∈ S}, E y.1 x.1 := by
    intro x
    rcases hcl x.1 x.2 with ⟨u, hu, hE⟩
    exact ⟨⟨u, hu⟩, hE⟩
  choose g hg using hstep
  rcases hne with ⟨v0, hv0⟩
  have hchain : ∀ k, E ((g^[k + 1]) ⟨v0, hv0⟩).1 ((g^[k]) ⟨v0, hv0⟩).1 := by
    intro k
    rw [Function.iterate_succ_apply']
    exact hg _
  have hpath : ∀ d k, Relation.TransGen E
      ((g^[k + d + 1]) ⟨v0, hv0⟩).1 ((g^[k]) ⟨v0, hv0⟩).1 := by
    intro d
    induction d with
    | zero =>
      intro k
      exact Relation.TransGen.single (hchain k)
    | succ d ihd =>
      intro k
      have h1 := ihd (k + 1)
      have h2 := hchain k
      rw [show k + (d + 1) + 1 = k + 1 + d + 1 from by omega]
      exact h1.tail h2
  have hmap : ∀ k ∈ Finset.range (S.card + 1), ((g^[k]) ⟨v0, hv0⟩).1 ∈ S :=
    fun k _ => ((g^[k]) ⟨v0, hv0⟩).2
  obtain ⟨i, hi, j, hj, hij, heq⟩ :=
    Finset.exists_ne_map_eq_of_card_lt_of_maps_to (by simp) hmap
  rcases Nat.lt_or_ge i j with hlt | hge
  · have hp := hpath (j - i - 1) i
    rw [show i + (j - i - 1) + 1 = j from by omega] at hp
    rw [heq] at hp
    exact ⟨_, hp⟩
  · have hlt2 : j < i := by omega
    have hp := hpath (i - j - 1) j
    rw [show j + (i - j - 1) + 1 = i from by omega] at hp
    rw [← heq] at hp
    exact ⟨_, hp⟩

theorem hasCycle_of_incomplete {M : Matrix} (hsq : IsSquare M)
    {indeg : List Int} {P : List Nat} (hInv : kahnInv M indeg [] P)
    (hlt : P.length < M.length) : HasCycleM M := by
  classical
  obtain ⟨ha, hb, hc, hd, he, hf, hg⟩ := hInv
  set S : Finset Nat := (Finset.range M.length).filter (fun v => v ∉ P)
    with hS
  have hSmem : ∀ v, v ∈ S ↔ v < M.length ∧ v ∉ P := by
    intro v
    rw [hS, Finset.mem_filter, Finset.mem_range]
  have hSne : S.Nonempty := by
    by_contra hcon
    rw [Finset.not_nonempty_iff_eq_empty] at hcon
    have hall : ∀ v, v < M.length → v ∈ P := by
      intro v hv
      by_contra hvp
      have : v ∈ S := (hSmem v).mpr ⟨hv, hvp⟩
      rw [hcon] at this
      exact absurd this (Finset.not_mem_empty v)
    have hsub : Finset.range M.length ⊆ P.toFinset := by
      intro x hx
      rw [List.mem_toFinset]
      exact hall x (Finset.mem_range.mp hx)
    have h1 := Finset.card_le_card hsub
    have h2 : P.toFinset.card ≤ P.length := P.toFinset_card_le
    rw [Finset.card_range] at h1
    omega
  have hcl : ∀ v ∈ S, ∃ u ∈ S, matEdge M u v := by
    intro v hv
    obtain ⟨hvlt, hvP⟩ := (hSmem v).mp hv
    have hpos := hg v hvlt (List.not_mem_nil v) hvP
    by_contra hcon
    push_neg at hcon
    have hPnd : P.Nodup := by
      have := hc
      rw [List.nil_append] at this
      exact this
    set pred := fun w => (cellAt M w v).isSome with hpred
    have hsub : ((List.range M.length).filter pred).toFinset ⊆
        (P.filter pred).toFinset := by
      intro u hu
      rw [List.mem_toFinset, List.mem_filter] at hu ⊢
      have hult := List.mem_range.mp hu.1
      have huedge : matEdge M u v := hu.2
      have huP : u ∈ P := by
        by_contra huP
        exact hcon u ((hSmem u).mpr ⟨hult, huP⟩) huedge
      exact ⟨huP, hu.2⟩
    have h1 : ((List.range M.length).filter pred).toFinset.card = indeg0 M v := by
      rw [List.toFinset_card_of_nodup ((List.nodup_range _).filter _)]
      rw [← List.countP_eq_length_filter]
      rfl
    have h2 : (P.filter pred).toFinset.card = P.countP pred := by
      rw [List.toFinset_card_of_nodup (hPnd.filter _)]
      rw [← List.countP_eq_length_filter]
    have h3 := Finset.card_le_card hsub
    rw [h1, h2] at h3
    rw [hpred] at h3
    have h4 := hb v hvlt
    omega
  obtain ⟨w, hw⟩ := exists_cycle_of_closed (matEdge M) S hSne hcl
  exact ⟨w, hw⟩

theorem not_hasCycle_of_complete {M : Matrix} (hsq : IsSquare M)
    {indeg : List Int} {P : List Nat} (hInv : kahnInv M indeg [] P)
    (hlen : P.length = M.length) : ¬ HasCycleM M := by
  obtain ⟨ha, hb, hc, hd, he, hf, hg⟩ := hInv
  have hPnd : P.Nodup := by
    have := hc
    rw [List.nil_append] at this
    exact this
  have hidx : ∀ i, i < P.length →
      ¬ Relation.TransGen (matEdge M) (P.getD i 0) (P.getD i 0) := by
    intro i
    induction i using Nat.strong_induction_on with
    | _ i ihs =>
      intro hi hcyc
      have hmem_take : ∀ u, u ∈ P.take i →
          ∃ j, j < i ∧ j < P.length ∧ P.getD j 0 = u := by
        intro u hu
        rcases List.getElem_of_mem hu with ⟨j, hj, hja⟩
        have hjlt : j < i := by
          have := hj
          simp [List.length_take] at this
          omega
        have hjP : j < P.length := by
          have := hj
          simp [List.length_take] at this
          omega
        refine ⟨j, hjlt, hjP, ?_⟩
        rw [List.getElem_take] at hja
        rw [List.getD_eq_getElem?_getD, List.getElem?_eq_getElem hjP]
        rw [hja]
        rfl
      have hne_idx : ∀ j, j < i → P.getD j 0 ≠ P.getD i 0 := by
        intro j hj hc2
        have hjP : j < P.length := lt_trans hj hi
        have hgi : P.getD i 0 = P[i] := by
          rw [List.getD_eq_getElem?_getD, List.getElem?_eq_getElem hi]
          rfl
        have hgj : P.getD j 0 = P[j] := by
          rw [List.getD_eq_getElem?_getD, List.getElem?_eq_getElem hjP]
          rfl
        rw [hgi, hgj] at hc2
        have := (List.Nodup.getElem_inj_iff hPnd).mp hc2
        omega
      cases hcyc with
      | single hE =>
        obtain ⟨j, hjlt, hjP, hjv⟩ := hmem_take _ (hf i hi _ hE)
        exact hne_idx j hjlt hjv
      | tail hT hE =>
        obtain ⟨j, hjlt, hjP, hjv⟩ := hmem_take _ (hf i hi _ hE)
        have hcomp : Relation.TransGen (matEdge M) (P.getD j 0) (P.getD j 0) := by
          rw [hjv]
          exact (Relation.TransGen.single hE).trans hT
        exact ihs j hjlt hjP hcomp
  rintro ⟨v, hv⟩
  have hvlt : v < M.length := by
    cases hv with
    | single h => exact (matEdge_lt hsq h).2
    | tail _ h => exact (matEdge_lt hsq h).2
  have hvP : v ∈ P := by
    have h1 : P.toFinset.card = P.length := List.toFinset_card_of_nodup hPnd
    have h2 : P.toFinset ⊆ Finset.range M.length := by
      intro y hy
      rw [List.mem_toFinset] at hy
      exact Finset.mem_range.mpr (hd y (by
        rw [List.nil_append]
        exact hy))
    have h3 : P.toFinset = Finset.range M.length := by
      apply Finset.eq_of_subset_of_card_le h2
      rw [Finset.card_range, h1, hlen]
    have h4 : v ∈ P.toFinset := by
      rw [h3]
      exact Finset.mem_range.mpr hvlt
    exact List.mem_toFinset.mp h4
  rcases List.getElem_of_mem hvP with ⟨i, hi, hiv⟩
  apply hidx i hi
  rw [show P.getD i 0 = v from by
    rw [List.getD_eq_getElem?_getD, List.getElem?_eq_getElem hi, hiv]
    rfl]
  exact hv

theorem detect_cycle_iff {M : Matrix} (hsq : IsSquare M) :
    detect_cycle M = true ↔ HasCycleM M := by
  obtain ⟨indeg', P', hInv', hcount⟩ := kahnLoop_final hsq M.length
    (initInDegree M)
    ((List.range M.length).filter (fun i => (initInDegree M).getD i 0 = 0)) []
    (kahnInv_init M hsq) (by simp)
  have hshow : detect_cycle M =
      decide (kahnLoop M M.length (initInDegree M)
        ((List.range M.length).filter
          (fun i => (initInDegree M).getD i 0 = 0)) 0 < M.length) := rfl
  rw [hshow]
  simp only [List.length_nil] at hcount
  rw [hcount, decide_eq_true_eq]
  constructor
  · intro h
    exact hasCycle_of_incomplete hsq hInv' h
  · intro hcyc
    by_contra hn
    have h1 := kahnInv_length_le hInv'
    rw [List.length_nil] at h1
    have h2 : P'.length = M.length := by omega
    exact not_hasCycle_of_complete hsq hInv' h2 hcyc

/-! ## The relaxation fixpoint -/

theorem rankStep_shape {r : Dict} {ch : Bool} {t : Task} {r' : Dict}
    {ch' : Bool} (h : rankStep r ch t = some (r', ch')) :
    (r' = r ∧ ch' = ch) ∨ ch' = true := by
  unfold rankStep at h
  by_cases hp : taskPreds t = []
  · rw [if_pos hp] at h
    cases hcur : dlookup r (taskId t) with
    | none => rw [hcur] at h; exact absurd h (by simp)
    | some cur =>
      rw [hcur] at h
      simp only [Option.bind_eq_bind, Option.some_bind] at h
      by_cases hcc : taskId t ≠ 0 ∧ cur = 0
      · rw [if_pos hcc] at h
        injection h with h
        injection h with h1 h2
        exact Or.inr h2.symm
      · rw [if_neg hcc] at h
        injection h with h
        injection h with h1 h2
        exact Or.inl ⟨h1.symm, h2.symm⟩
  · rw [if_neg hp] at h
    cases hvals : (taskPreds t).mapM (dlookup r) with
    | none => rw [hvals] at h; exact absurd h (by simp)
    | some vals =>
      rw [hvals] at h
      simp only [Option.bind_eq_bind, Option.some_bind] at h
      cases hcur : dlookup r (taskId t) with
      | none => rw [hcur] at h; exact absurd h (by simp)
      | some cur =>
        rw [hcur] at h
        simp only [Option.bind_eq_bind, Option.some_bind] at h
        cases vals with
        | nil =>
          dsimp only at h
          by_cases hgt : (0 : Int) + 1 > cur
          · rw [if_pos hgt] at h
            injection h with h
            injection h with h1 h2
            exact Or.inr h2.symm
          · rw [if_neg hgt] at h
            injection h with h
            injection h with h1 h2
            exact Or.inl ⟨h1.symm, h2.symm⟩
        | cons v vs =>
          dsimp only at h
          by_cases hgt : maxList v vs + 1 > cur
          · rw [if_pos hgt] at h
            injection h with h
            injection h with h1 h2
            exact Or.inr h2.symm
          · rw [if_neg hgt] at h
            injection h with h
            injection h with h1 h2
            exact Or.inl ⟨h1.symm, h2.symm⟩

theorem rankStep_true {r : Dict} {t : Task} {r' : Dict} {ch' : Bool}
    (h : rankStep r true t = some (r', ch')) : ch' = true := by
  rcases rankStep_shape h with ⟨_, h2⟩ | h2
  · exact h2
  · exact h2

/-- If a full pass over the task list reports no change, every single step
reported no change and kept the dict. -/
theorem rankFold_steps {tasks : List Task} {r : Dict}
    (h : tasks.foldlM (fun (st : Dict × Bool) t => rankStep st.1 st.2 t)
      (r, false) = some (r, false)) :
    ∀ t ∈ tasks, rankStep r false t = some (r, false) := by
  induction tasks with
  | nil => simp
  | cons t ts ih =>
    rw [List.foldlM_cons] at h
    cases hstep : rankStep r false t with
    | none => rw [hstep] at h; exact absurd h (by simp)
    | some st1 =>
      rw [hstep] at h
      simp only [Option.bind_eq_bind, Option.some_bind] at h
      have hkeep : st1 = (r, false) := by
        rcases rankStep_shape hstep with ⟨h1, h2⟩ | h2
        · cases st1
          simp only at h1 h2
          rw [h1, h2]
        · exfalso
          have htrue : ∀ (st st' : Dict × Bool), st.2 = true →
              (ts.foldlM (fun (st : Dict × Bool) t => rankStep st.1 st.2 t) st
                = some st') → st'.2 = true := by
            intro st st' hst hfold
            exact foldlM_option_invariant _ (fun st => st.2 = true) ts
              (fun b a b' _ hb hf => by
                cases b with
                | mk b1 b2 =>
                  simp only at hb
                  rw [hb] at hf
                  exact rankStep_true hf) st st' hst hfold
          have := htrue st1 (r, false) (by
            cases st1
            simp only at h2 ⊢
            exact h2) h
          simp at this
      rw [hkeep] at h hstep
      intro t' ht'
      rcases List.mem_cons.mp ht' with ht' | ht'
      · rw [ht']
        exact hstep
      · exact ih h t' ht'

theorem rankPass_fix_dict {tasks : List Task} {om : Int} {r r' : Dict}
    (h : rankPass tasks om r = some (r', false)) :
    r' = r ∧
    tasks.foldlM (fun (st : Dict × Bool) t => rankStep st.1 st.2 t) (r, false)
      = some (r, false) := by
  unfold rankPass at h
  cases hfold : tasks.foldlM
      (fun (st : Dict × Bool) t => rankStep st.1 st.2 t) (r, false) with
  | none => rw [hfold] at h; exact absurd h (by simp)
  | some st1 =>
    rw [hfold] at h
    simp only [Option.bind_eq_bind, Option.some_bind] at h
    cases hoth : (st1.1.filter (fun p => p.1 ≠ om)).map (fun p => p.2) with
    | nil => rw [hoth] at h; exact absurd h (by simp)
    | cons v vs =>
      rw [hoth] at h
      cases hcur : dlookup st1.1 om with
      | none => rw [hcur] at h; exact absurd h (by simp)
      | some curOmega =>
        rw [hcur] at h
        simp only [Option.bind_eq_bind, Option.some_bind] at h
        by_cases hne : maxList v vs + 1 ≠ curOmega
        · rw [if_pos hne] at h
          injection h with h
          injection h with h1 h2
          exact absurd h2.symm (by simp)
        · rw [if_neg hne] at h
          injection h with h
          injection h with h1 h2
          have hst1 : st1 = (r', false) := by
            cases st1 with
            | mk s1 s2 =>
              simp only at h1 h2
              rw [h1, h2]
          rw [hst1] at hfold
          have hQ := foldlM_option_invariant
            (fun (st : Dict × Bool) t => rankStep st.1 st.2 t)
            (fun st => st.2 = false → st.1 = r) tasks
            (fun b a b' _ hb hf => by
              rcases rankStep_shape (show rankStep b.1 b.2 a = some (b'.1, b'.2)
                  from hf) with ⟨h3, h4⟩ | h3
              · intro hb2
                rw [h4] at hb2
                rw [h3]
                exact hb hb2
              · intro hb2
                rw [hb2] at h3
                exact absurd h3 (by simp))
            (r, false) (r', false) (fun _ => rfl) hfold
          have hrr : r' = r := hQ rfl
          refine ⟨hrr, ?_⟩
          rw [hst1, hrr]

theorem rankLoop_fix {tasks : List Task} {om : Int} {fuel : Nat}
    {r0 r : Dict} (h : rankLoop tasks om fuel r0 = some r) :
    rankPass tasks om r = some (r, false) := by
  induction fuel generalizing r0 with
  | zero => exact absurd h (by simp [rankLoop])
  | succ fuel ih =>
    unfold rankLoop at h
    cases hpass : rankPass tasks om r0 with
    | none => rw [hpass] at h; exact absurd h (by simp)
    | some st =>
      rw [hpass] at h
      simp only [Option.bind_eq_bind, Option.some_bind] at h
      by_cases hch : st.2 = true
      · rw [if_pos hch] at h
        exact ih h
      · rw [if_neg hch] at h
        injection h with h
        have hst : st = (r, false) := by
          cases st with
          | mk s1 s2 =>
            simp only at h hch
            rw [h]
            simp only [Bool.not_eq_true] at hch
            rw [hch]
        rw [hst] at hpass
        have hrr := (rankPass_fix_dict hpass).1
        rw [hrr] at hpass ⊢
        exact hpass

/-! ## Values and keys of the rank dict through the loop -/

theorem dlookup_mem {d : Dict} {k v : Int} (h : dlookup d k = some v) :
    (k, v) ∈ d := by
  unfold dlookup at h
  cases hf : d.find? (fun p => p.1 = k) with
  | none => rw [hf] at h; exact absurd h (by simp)
  | some p =>
    rw [hf] at h
    simp only [Option.map_some'] at h
    injection h with h
    have hmem := List.mem_of_find?_eq_some hf
    have hpk := List.find?_some hf
    simp only [decide_eq_true_eq] at hpk
    have hpair : p = (k, v) := by
      cases p with
      | mk p1 p2 =>
        simp only at hpk h
        rw [hpk, h]
    rw [← hpair]
    exact hmem

theorem mapM_mem {α β : Type} {f : α → Option β} :
    ∀ {l : List α} {vals : List β}, l.mapM f = some vals →
      ∀ x ∈ l, ∃ y, f x = some y ∧ y ∈ vals := by
  intro l
  induction l with
  | nil =>
    intro vals h x hx
    simp at hx
  | cons a as ih =>
    intro vals h x hx
    rw [List.mapM_cons] at h
    cases hfa : f a with
    | none => rw [hfa] at h; exact absurd h (by simp)
    | some y =>
      rw [hfa] at h
      simp only [Option.bind_eq_bind, Option.some_bind] at h
      cases hfas : as.mapM f with
      | none => rw [hfas] at h; exact absurd h (by simp)
      | some ys =>
        rw [hfas] at h
        simp only [Option.bind_eq_bind, Option.some_bind, Option.pure_def] at h
        injection h with h
        rcases List.mem_cons.mp hx with hx | hx
        · refine ⟨y, by rw [hx]; exact hfa, ?_⟩
          rw [← h]
          exact List.mem_cons_self _ _
        · rcases ih hfas x hx with ⟨y', hy', hym⟩
          refine ⟨y', hy', ?_⟩
          rw [← h]
          exact List.mem_cons_of_mem _ hym

theorem mapM_mem_rev {α β : Type} {f : α → Option β} :
    ∀ {l : List α} {vals : List β}, l.mapM f = some vals →
      ∀ y ∈ vals, ∃ x ∈ l, f x = some y := by
  intro l
  induction l with
  | nil =>
    intro vals h y hy
    simp only [List.mapM_nil, Option.pure_def] at h
    injection h with h
    rw [← h] at hy
    simp at hy
  | cons a as ih =>
    intro vals h y hy
    rw [List.mapM_cons] at h
    cases hfa : f a with
    | none => rw [hfa] at h; exact absurd h (by simp)
    | some y0 =>
      rw [hfa] at h
      simp only [Option.bind_eq_bind, Option.some_bind] at h
      cases hfas : as.mapM f with
      | none => rw [hfas] at h; exact absurd h (by simp)
      | some ys =>
        rw [hfas] at h
        simp only [Option.bind_eq_bind, Option.some_bind, Option.pure_def] at h
        injection h with h
        rw [← h] at hy
        rcases List.mem_cons.mp hy with hy | hy
        · exact ⟨a, List.mem_cons_self _ _, by rw [hy]; exact hfa⟩
        · rcases ih hfas y hy with ⟨x, hx, hfx⟩
          exact ⟨x, List.mem_cons_of_mem _ hx, hfx⟩

/-- All values of a rank dict are non-negative. -/
def valsNonneg (d : Dict) : Prop := ∀ p ∈ d, 0 ≤ p.2

theorem dinsert_valsNonneg {d : Dict} {k v : Int} (hd : valsNonneg d)
    (hv : 0 ≤ v) : valsNonneg (dinsert k v d) := by
  intro p hp
  unfold dinsert at hp
  by_cases hany : (d.any fun p => p.1 = k) = true
  · rw [if_pos hany] at hp
    rcases List.mem_map.mp hp with ⟨q, hq, hgq⟩
    by_cases hqk : q.1 = k
    · rw [if_pos hqk] at hgq
      rw [← hgq]
      exact hv
    · rw [if_neg hqk] at hgq
      rw [← hgq]
      exact hd q hq
  · rw [if_neg hany] at hp
    rcases List.mem_append.mp hp with hp | hp
    · exact hd p hp
    · rw [List.mem_singleton] at hp
      rw [hp]
      exact hv

theorem rankStep_valsNonneg {r : Dict} {ch : Bool} {t : Task} {r' : Dict}
    {ch' : Bool} (hnn : valsNonneg r) (h : rankStep r ch t = some (r', ch')) :
    valsNonneg r' := by
  unfold rankStep at h
  by_cases hp : taskPreds t = []
  · rw [if_pos hp] at h
    cases hcur : dlookup r (taskId t) with
    | none => rw [hcur] at h; exact absurd h (by simp)
    | some cur =>
      rw [hcur] at h
      simp only [Option.bind_eq_bind, Option.some_bind] at h
      by_cases hcc : taskId t ≠ 0 ∧ cur = 0
      · rw [if_pos hcc] at h
        injection h with h
        injection h with h1 h2
        rw [← h1]
        exact dinsert_valsNonneg hnn (by omega)
      · rw [if_neg hcc] at h
        injection h with h
        injection h with h1 h2
        rw [← h1]
        exact hnn
  · rw [if_neg hp] at h
    cases hvals : (taskPreds t).mapM (dlookup r) with
    | none => rw [hvals] at h; exact absurd h (by simp)
    | some vals =>
      rw [hvals] at h
      simp only [Option.bind_eq_bind, Option.some_bind] at h
      cases hcur : dlookup r (taskId t) with
      | none => rw [hcur] at h; exact absurd h (by simp)
      | some cur =>
        rw [hcur] at h
        simp only [Option.bind_eq_bind, Option.some_bind] at h
        have hvnn : ∀ y ∈ vals, 0 ≤ y := by
          intro y hy
          rcases mapM_mem_rev hvals y hy with ⟨x, _, hfx⟩
          exact hnn _ (dlookup_mem hfx)
        cases vals with
        | nil =>
          dsimp only at h
          by_cases hgt : (0 : Int) + 1 > cur
          · rw [if_pos hgt] at h
            injection h with h
            injection h with h1 h2
            rw [← h1]
            exact dinsert_valsNonneg hnn (by omega)
          · rw [if_neg hgt] at h
            injection h with h
            injection h with h1 h2
            rw [← h1]
            exact hnn
        | cons v vs =>
          dsimp only at h
          have hmx : 0 ≤ maxList v vs :=
            hvnn _ (maxList_spec v vs).1
          by_cases hgt : maxList v vs + 1 > cur
          · rw [if_pos hgt] at h
            injection h with h
            injection h with h1 h2
            rw [← h1]
            exact dinsert_valsNonneg hnn (by omega)
          · rw [if_neg hgt] at h
            injection h with h
            injection h with h1 h2
            rw [← h1]
            exact hnn

theorem rankPass_valsNonneg {tasks : List Task} {om : Int} {r r' : Dict}
    {ch : Bool} (hnn : valsNonneg r) (h : rankPass tasks om r = some (r', ch)) :
    valsNonneg r' := by
  unfold rankPass at h
  cases hfold : tasks.foldlM
      (fun (st : Dict × Bool) t => rankStep st.1 st.2 t) (r, false) with
  | none => rw [hfold] at h; exact absurd h (by simp)
  | some st1 =>
    rw [hfold] at h
    simp only [Option.bind_eq_bind, Option.some_bind] at h
    have hnn1 : valsNonneg st1.1 := by
      exact foldlM_option_invariant _ (fun st => valsNonneg st.1) tasks
        (fun b a b' _ hb hf => rankStep_valsNonneg hb
          (show rankStep b.1 b.2 a = some (b'.1, b'.2) from hf))
        (r, false) st1 hnn hfold
    cases hoth : (st1.1.filter (fun p => p.1 ≠ om)).map (fun p => p.2) with
    | nil => rw [hoth] at h; exact absurd h (by simp)
    | cons v vs =>
      rw [hoth] at h
      cases hcur : dlookup st1.1 om with
      | none => rw [hcur] at h; exact absurd h (by simp)
      | some curOmega =>
        rw [hcur] at h
        simp only [Option.bind_eq_bind, Option.some_bind] at h
        have hvnn : 0 ≤ maxList v vs := by
          have hm := (maxList_spec v vs).1
          rw [← hoth] at hm
          rcases List.mem_map.mp hm with ⟨q, hq, hq2⟩
          rw [← hq2]
          exact hnn1 q (List.mem_of_mem_filter hq)
        by_cases hne : maxList v vs + 1 ≠ curOmega
        · rw [if_pos hne] at h
          injection h with h
          injection h with h1 h2
          rw [← h1]
          exact dinsert_valsNonneg hnn1 (by omega)
        · rw [if_neg hne] at h
          injection h with h
          injection h with h1 h2
          rw [← h1]
          exact hnn1

theorem rankLoop_valsNonneg {tasks : List Task} {om : Int} {fuel : Nat}
    {r0 r : Dict} (hnn : valsNonneg r0)
    (h : rankLoop tasks om fuel r0 = some r) : valsNonneg r := by
  induction fuel generalizing r0 with
  | zero => exact absurd h (by simp [rankLoop])
  | succ fuel ih =>
    unfold rankLoop at h
    cases hpass : rankPass tasks om r0 with
    | none => rw [hpass] at h; exact absurd h (by simp)
    | some st =>
      rw [hpass] at h
      simp only [Option.bind_eq_bind, Option.some_bind] at h
      have hnn1 : valsNonneg st.1 := rankPass_valsNonneg hnn
        (show rankPass tasks om r0 = some (st.1, st.2) from hpass)
      by_cases hch : st.2 = true
      · rw [if_pos hch] at h
        exact ih hnn1 h
      · rw [if_neg hch] at h
        injection h with h
        rw [← h]
        exact hnn1

theorem initRanks_vals_zero (tasks : List Task) :
    ∀ p ∈ initRanks tasks, p.2 = 0 := by
  unfold initRanks
  generalize hd : [((0 : Int), (0 : Int))] = d
  have hbase : ∀ p ∈ d, p.2 = 0 := by
    rw [← hd]
    intro p hp
    rw [List.mem_singleton] at hp
    rw [hp]
  clear hd
  induction tasks generalizing d with
  | nil => exact hbase
  | cons t ts ih =>
    rw [List.foldl_cons]
    apply ih
    intro p hp
    unfold dinsert at hp
    by_cases hany : (d.any fun q => q.1 = taskId t) = true
    · rw [if_pos hany] at hp
      rcases List.mem_map.mp hp with ⟨q, hq, hgq⟩
      by_cases hqk : q.1 = taskId t
      · rw [if_pos hqk] at hgq
        rw [← hgq]
      · rw [if_neg hqk] at hgq
        rw [← hgq]
        exact hbase q hq
    · rw [if_neg hany] at hp
      rcases List.mem_append.mp hp with hp | hp
      · exact hbase p hp
      · rw [List.mem_singleton] at hp
        rw [hp]

theorem ranksStart_valsNonneg (tasks : List Task) :
    valsNonneg (ranksStart tasks) := by
  unfold ranksStart
  apply dinsert_valsNonneg
  · intro p hp
    rw [initRanks_vals_zero tasks p hp]
  · exact le_refl 0

theorem dinsert_keys_nodup {d : Dict} {k v : Int} (h : (dkeys d).Nodup) :
    (dkeys (dinsert k v d)).Nodup := by
  by_cases hm : k ∈ dkeys d
  · rw [dkeys_dinsert_of_mem hm]
    exact h
  · rw [dkeys_dinsert_of_not_mem hm]
    rw [List.nodup_append]
    refine ⟨h, List.nodup_singleton _, ?_⟩
    intro a ha hma
    rw [List.mem_singleton] at hma
    rw [hma] at ha
    exact hm ha

theorem initRanks_keys_nodup (tasks : List Task) :
    (dkeys (initRanks tasks)).Nodup := by
  unfold initRanks
  generalize hd : [((0 : Int), (0 : Int))] = d
  have hbase : (dkeys d).Nodup := by
    rw [← hd]
    simp [dkeys]
  clear hd
  induction tasks generalizing d with
  | nil => exact hbase
  | cons t ts ih =>
    rw [List.foldl_cons]
    exact ih _ (dinsert_keys_nodup hbase)

theorem ranksStart_keys_nodup (tasks : List Task) :
    (dkeys (ranksStart tasks)).Nodup :=
  dinsert_keys_nodup (initRanks_keys_nodup tasks)

/-! ## Consequences of the fixpoint -/

/-- At the fixpoint, a task with predecessors has a rank at least one above
each predecessor's rank. -/
theorem rankStep_fix_preds {r : Dict} {t : Task}
    (h : rankStep r false t = some (r, false)) (hp : taskPreds t ≠ []) :
    ∃ cur, dlookup r (taskId t) = some cur ∧
      ∀ p ∈ taskPreds t, ∃ rp, dlookup r p = some rp ∧ rp + 1 ≤ cur := by
  unfold rankStep at h
  rw [if_neg hp] at h
  cases hvals : (taskPreds t).mapM (dlookup r) with
  | none => rw [hvals] at h; exact absurd h (by simp)
  | some vals =>
    rw [hvals] at h
    simp only [Option.bind_eq_bind, Option.some_bind] at h
    cases hcur : dlookup r (taskId t) with
    | none => rw [hcur] at h; exact absurd h (by simp)
    | some cur =>
      rw [hcur] at h
      simp only [Option.bind_eq_bind, Option.some_bind] at h
      cases vals with
      | nil =>
        exfalso
        cases hpl : taskPreds t with
        | nil => exact hp hpl
        | cons p0 ps =>
          rw [hpl] at hvals
          rcases mapM_mem hvals p0 (List.mem_cons_self _ _) with ⟨y, _, hym⟩
          simp at hym
      | cons v vs =>
        dsimp only at h
        by_cases hgt : maxList v vs + 1 > cur
        · rw [if_pos hgt] at h
          injection h with h
          injection h with h1 h2
          exact absurd h2 (by simp)
        · rw [if_neg hgt] at h
          refine ⟨cur, rfl, ?_⟩
          intro p hpmem
          rcases mapM_mem hvals p hpmem with ⟨rp, hrp, hrpm⟩
          refine ⟨rp, hrp, ?_⟩
          have := (maxList_spec v vs).2 rp hrpm
          omega

/-- At the fixpoint, a predecessor-free task other than α has been raised
off rank 0. -/
theorem rankStep_fix_nopreds {r : Dict} {t : Task}
    (h : rankStep r false t = some (r, false)) (hp : taskPreds t = []) :
    ∃ cur, dlookup r (taskId t) = some cur ∧ (taskId t = 0 ∨ cur ≠ 0) := by
  unfold rankStep at h
  rw [if_pos hp] at h
  cases hcur : dlookup r (taskId t) with
  | none => rw [hcur] at h; exact absurd h (by simp)
  | some cur =>
    rw [hcur] at h
    simp only [Option.bind_eq_bind, Option.some_bind] at h
    by_cases hcc : taskId t ≠ 0 ∧ cur = 0
    · rw [if_pos hcc] at h
      injection h with h
      injection h with h1 h2
      exact absurd h2 (by simp)
    · refine ⟨cur, rfl, ?_⟩
      push_neg at hcc
      by_cases hid : taskId t = 0
      · exact Or.inl hid
      · exact Or.inr (hcc hid)

/-- At the fixpoint, ω's rank strictly dominates every other key's rank. -/
theorem rankPass_fix_omega {tasks : List Task} {om : Int} {r : Dict}
    (h : rankPass tasks om r = some (r, false)) :
    ∃ co, dlookup r om = some co ∧
      ∀ p ∈ r, p.1 ≠ om → p.2 < co := by
  unfold rankPass at h
  cases hfold : tasks.foldlM
      (fun (st : Dict × Bool) t => rankStep st.1 st.2 t) (r, false) with
  | none => rw [hfold] at h; exact absurd h (by simp)
  | some st1 =>
    rw [hfold] at h
    simp only [Option.bind_eq_bind, Option.some_bind] at h
    cases hoth : (st1.1.filter (fun p => p.1 ≠ om)).map (fun p => p.2) with
    | nil => rw [hoth] at h; exact absurd h (by simp)
    | cons v vs =>
      rw [hoth] at h
      cases hcur : dlookup st1.1 om with
      | none => rw [hcur] at h; exact absurd h (by simp)
      | some curOmega =>
        rw [hcur] at h
        simp only [Option.bind_eq_bind, Option.some_bind] at h
        by_cases hne : maxList v vs + 1 ≠ curOmega
        · rw [if_pos hne] at h
          injection h with h
          injection h with h1 h2
          exact absurd h2 (by simp)
        · rw [if_neg hne] at h
          injection h with h
          injection h with h1 h2
          push_neg at hne
          have hst1 : st1.1 = r := h1
          rw [hst1] at hcur hoth
          refine ⟨curOmega, hcur, ?_⟩
          intro p hpmem hpne
          have hpf : p ∈ r.filter (fun p => p.1 ≠ om) := by
            rw [List.mem_filter]
            refine ⟨hpmem, ?_⟩
            simp [hpne]
          have hpv : p.2 ∈ v :: vs := by
            rw [← hoth]
            exact List.mem_map.mpr ⟨p, hpf, rfl⟩
          have := (maxList_spec v vs).2 _ hpv
          omega

/-- A relaxation step keeps the dict or writes the task's own id. -/
theorem rankStep_insert_shape {r : Dict} {ch : Bool} {t : Task} {r' : Dict}
    {ch' : Bool} (h : rankStep r ch t = some (r', ch')) :
    r' = r ∨ ∃ w, r' = dinsert (taskId t) w r := by
  unfold rankStep at h
  by_cases hp : taskPreds t = []
  · rw [if_pos hp] at h
    cases hcur : dlookup r (taskId t) with
    | none => rw [hcur] at h; exact absurd h (by simp)
    | some cur =>
      rw [hcur] at h
      simp only [Option.bind_eq_bind, Option.some_bind] at h
      by_cases hcc : taskId t ≠ 0 ∧ cur = 0
      · rw [if_pos hcc] at h
        injection h with h
        injection h with h1 h2
        exact Or.inr ⟨1, h1.symm⟩
      · rw [if_neg hcc] at h
        injection h with h
        injection h with h1 h2
        exact Or.inl h1.symm
  · rw [if_neg hp] at h
    cases hvals : (taskPreds t).mapM (dlookup r) with
    | none => rw [hvals] at h; exact absurd h (by simp)
    | some vals =>
      rw [hvals] at h
      simp only [Option.bind_eq_bind, Option.some_bind] at h
      cases hcur : dlookup r (taskId t) with
      | none => rw [hcur] at h; exact absurd h (by simp)
      | some cur =>
        rw [hcur] at h
        simp only [Option.bind_eq_bind, Option.some_bind] at h
        cases vals with
        | nil =>
          dsimp only at h
          by_cases hgt : (0 : Int) + 1 > cur
          · rw [if_pos hgt] at h
            injection h with h
            injection h with h1 h2
            exact Or.inr ⟨0 + 1, h1.symm⟩
          · rw [if_neg hgt] at h
            injection h with h
            injection h with h1 h2
            exact Or.inl h1.symm
        | cons v vs =>
          dsimp only at h
          by_cases hgt : maxList v vs + 1 > cur
          · rw [if_pos hgt] at h
            injection h with h
            injection h with h1 h2
            exact Or.inr ⟨maxList v vs + 1, h1.symm⟩
          · rw [if_neg hgt] at h
            injection h with h
            injection h with h1 h2
            exact Or.inl h1.symm

/-- If no task has id 0, the entry `ranks[0] = 0` survives a full pass. -/
theorem rankPass_alpha {tasks : List Task} {om : Int} {r r' : Dict}
    {ch : Bool} (h0 : (0 : Int) ∉ taskIds tasks) (hom : om ≠ 0)
    (h : rankPass tasks om r = some (r', ch)) (ha : dlookup r 0 = some 0) :
    dlookup r' 0 = some 0 := by
  unfold rankPass at h
  cases hfold : tasks.foldlM
      (fun (st : Dict × Bool) t => rankStep st.1 st.2 t) (r, false) with
  | none => rw [hfold] at h; exact absurd h (by simp)
  | some st1 =>
    rw [hfold] at h
    simp only [Option.bind_eq_bind, Option.some_bind] at h
    have ha1 : dlookup st1.1 0 = some 0 := by
      exact foldlM_option_invariant _ (fun st => dlookup st.1 0 = some 0) tasks
        (fun b a b' hamem hb hf => by
          rcases rankStep_insert_shape
              (show rankStep b.1 b.2 a = some (b'.1, b'.2) from hf) with
            hsh | ⟨w, hsh⟩
          · rw [hsh]
            exact hb
          · rw [hsh, dlookup_dinsert, if_neg, hb]
            intro hz
            exact h0 (by
              rw [hz]
              exact List.mem_map_of_mem taskId hamem))
        (r, false) st1 ha hfold
    cases hoth : (st1.1.filter (fun p => p.1 ≠ om)).map (fun p => p.2) with
    | nil => rw [hoth] at h; exact absurd h (by simp)
    | cons v vs =>
      rw [hoth] at h
      cases hcur : dlookup st1.1 om with
      | none => rw [hcur] at h; exact absurd h (by simp)
      | some curOmega =>
        rw [hcur] at h
        simp only [Option.bind_eq_bind, Option.some_bind] at h
        by_cases hne : maxList v vs + 1 ≠ curOmega
        · rw [if_pos hne] at h
          injection h with h
          injection h with h1 h2
          rw [← h1, dlookup_dinsert, if_neg (fun hz => hom hz.symm)]
          exact ha1
        · rw [if_neg hne] at h
          injection h with h
          injection h with h1 h2
          rw [← h1]
          exact ha1

theorem rankLoop_alpha {tasks : List Task} {om : Int} {fuel : Nat}
    {r0 r : Dict} (h0 : (0 : Int) ∉ taskIds tasks) (hom : om ≠ 0)
    (h : rankLoop tasks om fuel r0 = some r) (ha : dlookup r0 0 = some 0) :
    dlookup r 0 = some 0 := by
  induction fuel generalizing r0 with
  | zero => exact absurd h (by simp [rankLoop])
  | succ fuel ih =>
    unfold rankLoop at h
    cases hpass : rankPass tasks om r0 with
    | none => rw [hpass] at h; exact absurd h (by simp)
    | some st =>
      rw [hpass] at h
      simp only [Option.bind_eq_bind, Option.some_bind] at h
      have ha1 : dlookup st.1 0 = some 0 := rankPass_alpha h0 hom
        (show rankPass tasks om r0 = some (st.1, st.2) from hpass) ha
      by_cases hch : st.2 = true
      · rw [if_pos hch] at h
        exact ih h ha1
      · rw [if_neg hch] at h
        injection h with h
        rw [← h]
        exact ha1

theorem ranksStart_alpha (tasks : List Task) :
    dlookup (ranksStart tasks) 0 = some 0 := by
  unfold ranksStart
  rw [dlookup_dinsert, if_neg]
  · rcases initRanks_head tasks with ⟨rest, hrest⟩
    rw [hrest, dlookup_cons, if_pos rfl]
  · intro hz
    have := omegaKey_pos tasks
    omega

/-- At the fixpoint no task lists the ω key among its predecessors. -/
theorem fix_pred_ne_omega {tasks : List Task} {r : Dict}
    (hpass : rankPass tasks (omegaKey tasks) r = some (r, false)) :
    ∀ t ∈ tasks, ∀ p ∈ taskPreds t, p ≠ omegaKey tasks := by
  intro t ht p hp hpom
  have hsteps := rankFold_steps (rankPass_fix_dict hpass).2
  have hpne : taskPreds t ≠ [] := by
    intro hc
    rw [hc] at hp
    simp at hp
  obtain ⟨cur, hcur, hpreds⟩ := rankStep_fix_preds (hsteps t ht) hpne
  obtain ⟨rp, hrp, hle⟩ := hpreds p hp
  obtain ⟨co, hco, hub⟩ := rankPass_fix_omega hpass
  rw [hpom, hco] at hrp
  injection hrp with hrp
  have hidlt : taskId t < omegaKey tasks :=
    taskId_lt_omegaKey (List.mem_map_of_mem taskId ht)
  have hcurlt := hub (taskId t, cur) (dlookup_mem hcur) (by
    intro hc
    simp only at hc
    omega)
  simp only at hcurlt
  omega

/-- A task with id 0 (α's reserved id) on which the fixpoint was reached
puts a directed cycle in the scheduling graph. -/
theorem cycle_of_zero_task {tasks : List Task} {r : Dict}
    (hpass : rankPass tasks (omegaKey tasks) r = some (r, false))
    (hkeys : dkeys r = dkeys (ranksStart tasks))
    (h0 : (0 : Int) ∈ taskIds tasks) :
    ∃ w, Relation.TransGen (gEdge tasks) w w := by
  classical
  obtain ⟨t0, ht0, hid0⟩ : ∃ t ∈ tasks, taskId t = 0 := by
    rcases List.mem_map.mp h0 with ⟨t, ht, hid⟩
    exact ⟨t, ht, hid⟩
  by_cases hp0 : taskPreds t0 = []
  · exact ⟨0, Relation.TransGen.single (Or.inl ⟨rfl, t0, ht0, hid0, hp0⟩)⟩
  · have hsteps := rankFold_steps (rankPass_fix_dict hpass).2
    have hpredsIn : ∀ t ∈ tasks, ∀ p ∈ taskPreds t,
        p = 0 ∨ p ∈ taskIds tasks := by
      intro t ht p hp
      have hpne : taskPreds t ≠ [] := by
        intro hc
        rw [hc] at hp
        simp at hp
      obtain ⟨cur, hcur, hpred⟩ := rankStep_fix_preds (hsteps t ht) hpne
      obtain ⟨rp, hrp, _⟩ := hpred p hp
      have hmem : p ∈ dkeys r := dlookup_isSome_iff.mp (by rw [hrp]; rfl)
      rw [hkeys, mem_dkeys_ranksStart] at hmem
      rcases hmem with hmem | hmem
      · exact absurd hmem (fix_pred_ne_omega hpass t ht p hp)
      · exact hmem
    have harc : ∀ t ∈ tasks, ∀ p ∈ taskPreds t, gEdge tasks p (taskId t) := by
      intro t ht p hp
      refine Or.inr (Or.inl ⟨t, ht, rfl, hp, ?_⟩)
      rcases hpredsIn t ht p hp with hc | hc
      · rw [hc]
        exact h0
      · exact hc
    set S : Finset Int := insert 0 ((taskIds tasks).toFinset.filter
      (fun u => Relation.TransGen (gEdge tasks) u 0)) with hS
    have hSmem : ∀ v, v ∈ S ↔ v = 0 ∨
        (v ∈ taskIds tasks ∧ Relation.TransGen (gEdge tasks) v 0) := by
      intro v
      rw [hS, Finset.mem_insert, Finset.mem_filter, List.mem_toFinset]
    have hcl : ∀ v ∈ S, ∃ u ∈ S, gEdge tasks u v := by
      intro v hv
      rcases (hSmem v).mp hv with hv0 | ⟨hvids, hvtg⟩
      · subst hv0
        cases hpl : taskPreds t0 with
        | nil => exact absurd hpl hp0
        | cons p1 ps =>
          have hp1 : p1 ∈ taskPreds t0 := by
            rw [hpl]
            exact List.mem_cons_self _ _
          have harc1 : gEdge tasks p1 0 := by
            rw [← hid0]
            exact harc t0 ht0 p1 hp1
          refine ⟨p1, ?_, harc1⟩
          rcases hpredsIn t0 ht0 p1 hp1 with hc | hc
          · exact (hSmem p1).mpr (Or.inl hc)
          · exact (hSmem p1).mpr (Or.inr ⟨hc, Relation.TransGen.single harc1⟩)
      · rcases List.mem_map.mp hvids with ⟨tv, htv, hidv⟩
        cases hpl : taskPreds tv with
        | nil =>
          refine ⟨0, (hSmem 0).mpr (Or.inl rfl), ?_⟩
          exact Or.inl ⟨rfl, tv, htv, hidv, hpl⟩
        | cons q qs =>
          have hq : q ∈ taskPreds tv := by
            rw [hpl]
            exact List.mem_cons_self _ _
          have harcq : gEdge tasks q v := by
            rw [← hidv]
            exact harc tv htv q hq
          refine ⟨q, ?_, harcq⟩
          rcases hpredsIn tv htv q hq with hc | hc
          · exact (hSmem q).mpr (Or.inl hc)
          · exact (hSmem q).mpr (Or.inr ⟨hc,
              Relation.TransGen.head harcq hvtg⟩)
    exact exists_cycle_of_closed (gEdge tasks) S
      ⟨0, (hSmem 0).mpr (Or.inl rfl)⟩ hcl

/-! ## Termination of the relaxation loop (C8) -/

/-- The predecessor arcs of the scheduling graph: `u` is listed as a
predecessor of a task whose id is `v`. -/
def pEdge (tasks : List Task) (u v : Int) : Prop :=
  ∃ t ∈ tasks, taskId t = v ∧ u ∈ taskPreds t

/-- The relaxation constraint of one task holds in `r` (for a task whose id
is not 0, this says exactly that the task's step of a pass leaves the dict
unchanged). -/
def taskOk (r : Dict) (t : Task) : Prop :=
  if taskPreds t = [] then
    ∃ c, dlookup r (taskId t) = some c ∧ c ≠ 0
  else
    ∃ c, dlookup r (taskId t) = some c ∧
      ∀ p ∈ taskPreds t, ∃ rp, dlookup r p = some rp ∧ rp + 1 ≤ c

/-- The ω entry agrees with the update every pass ends with:
`ranks[ω] = 1 + max(ranks[t] for t ≠ ω)`. -/
def omOk (tasks : List Task) (r : Dict) : Prop :=
  ∃ v vs, (r.filter (fun p => p.1 ≠ omegaKey tasks)).map (fun p => p.2) =
      v :: vs ∧
    dlookup r (omegaKey tasks) = some (maxList v vs + 1)

/-- When every referenced predecessor resolves, predecessor arcs are arcs of
the scheduling graph. -/
theorem pEdge_gEdge {tasks : List Task}
    (hres : ∀ t ∈ tasks, ∀ p ∈ taskPreds t, p ∈ taskIds tasks)
    {u v : Int} (h : pEdge tasks u v) : gEdge tasks u v := by
  rcases h with ⟨t, ht, hid, hp⟩
  exact Or.inr (Or.inl ⟨t, ht, hid, hp, hres t ht u hp⟩)

/-- A task whose id is 0 (α's reserved vertex) puts a cycle in the
scheduling graph whenever every referenced predecessor resolves. -/
theorem zero_id_cycle {tasks : List Task}
    (hres : ∀ t ∈ tasks, ∀ p ∈ taskPreds t, p ∈ taskIds tasks)
    (h0 : (0 : Int) ∈ taskIds tasks) :
    ∃ w, Relation.TransGen (gEdge tasks) w w := by
  classical
  obtain ⟨t0, ht0, hid0⟩ := List.mem_map.mp h0
  set S : Finset Int := insert 0 (taskIds tasks).toFinset with hS
  have hcl : ∀ v ∈ S, ∃ u ∈ S, gEdge tasks u v := by
    intro v hv
    have hvmem : ∃ tv ∈ tasks, taskId tv = v := by
      rcases Finset.mem_insert.mp hv with hv0 | hvm
      · exact ⟨t0, ht0, by rw [hid0, hv0]⟩
      · rcases List.mem_map.mp (List.mem_toFinset.mp hvm) with ⟨tv, htv, hidv⟩
        exact ⟨tv, htv, hidv⟩
    obtain ⟨tv, htv, hidv⟩ := hvmem
    cases hpl : taskPreds tv with
    | nil =>
      exact ⟨0, Finset.mem_insert_self _ _, Or.inl ⟨rfl, tv, htv, hidv, hpl⟩⟩
    | cons q qs =>
      have hq : q ∈ taskPreds tv := by
        rw [hpl]
        exact List.mem_cons_self _ _
      have hqids : q ∈ taskIds tasks := hres tv htv q hq
      refine ⟨q, Finset.mem_insert_of_mem (List.mem_toFinset.mpr hqids), ?_⟩
      rw [← hidv]
      exact pEdge_gEdge hres ⟨tv, htv, rfl, hq⟩
  exact exists_cycle_of_closed (gEdge tasks) S
    ⟨0, Finset.mem_insert_self _ _⟩ hcl

/-- A `mapM` over a list on which the function always succeeds succeeds. -/
theorem mapM_total {α β : Type} {f : α → Option β} :
    ∀ {l : List α}, (∀ x ∈ l, (f x).isSome = true) →
      ∃ vals, l.mapM f = some vals := by
  intro l
  induction l with
  | nil =>
    intro _
    exact ⟨[], rfl⟩
  | cons a as ih =>
    intro h
    obtain ⟨y, hy⟩ := Option.isSome_iff_exists.mp (h a (List.mem_cons_self _ _))
    obtain ⟨ys, hys⟩ := ih (fun x hx => h x (List.mem_cons_of_mem _ hx))
    refine ⟨y :: ys, ?_⟩
    rw [List.mapM_cons, hy, hys]
    rfl

/-- `taskOk` only depends on the lookups at the task's id and at its
predecessors. -/
theorem taskOk_congr {r r' : Dict} {t : Task}
    (hok : taskOk r t)
    (hown : dlookup r' (taskId t) = dlookup r (taskId t))
    (hfrozen : ∀ p ∈ taskPreds t, dlookup r' p = dlookup r p) :
    taskOk r' t := by
  unfold taskOk at hok ⊢
  by_cases hp : taskPreds t = []
  · rw [if_pos hp] at hok ⊢
    rw [hown]
    exact hok
  · rw [if_neg hp] at hok ⊢
    obtain ⟨c, hc, hall⟩ := hok
    refine ⟨c, by rw [hown]; exact hc, ?_⟩
    intro p hpm
    obtain ⟨rp, hrp, hle⟩ := hall p hpm
    exact ⟨rp, by rw [hfrozen p hpm]; exact hrp, hle⟩

/-- `taskOk` survives any change that freezes the predecessors and does not
decrease the task's own (non-negative) rank. -/
theorem taskOk_mono {r r' : Dict} {t : Task}
    (hok : taskOk r t)
    (hfrozen : ∀ p ∈ taskPreds t, dlookup r' p = dlookup r p)
    (hmono : ∀ k c, dlookup r k = some c →
      ∃ c', dlookup r' k = some c' ∧ c ≤ c')
    (hnn : valsNonneg r) :
    taskOk r' t := by
  unfold taskOk at hok ⊢
  by_cases hp : taskPreds t = []
  · rw [if_pos hp] at hok ⊢
    obtain ⟨c, hc, hcne⟩ := hok
    obtain ⟨c', hc', hle⟩ := hmono _ _ hc
    have h0 : 0 ≤ c := hnn _ (dlookup_mem hc)
    refine ⟨c', hc', ?_⟩
    omega
  · rw [if_neg hp] at hok ⊢
    obtain ⟨c, hc, hall⟩ := hok
    obtain ⟨c', hc', hle⟩ := hmono _ _ hc
    refine ⟨c', hc', ?_⟩
    intro p hpm
    obtain ⟨rp, hrp, hrple⟩ := hall p hpm
    refine ⟨rp, by rw [hfrozen p hpm]; exact hrp, ?_⟩
    omega

/-- Writing key `k` does not disturb the entries of other keys. -/
theorem filter_ne_dinsert_self (r : Dict) (k v : Int) :
    (dinsert k v r).filter (fun p => p.1 ≠ k) =
      r.filter (fun p => p.1 ≠ k) := by
  unfold dinsert
  by_cases hany : (r.any fun p => p.1 = k) = true
  · rw [if_pos hany]
    clear hany
    induction r with
    | nil => rfl
    | cons q rest ih =>
      rw [List.map_cons]
      by_cases hq : q.1 = k
      · rw [if_pos hq]
        rw [List.filter_cons, List.filter_cons]
        rw [if_neg (by simp), if_neg (by simp [hq])]
        exact ih
      · rw [if_neg hq]
        rw [List.filter_cons, List.filter_cons]
        simp only [ne_eq, hq, not_false_eq_true, decide_True, if_true]
        rw [ih]
  · rw [if_neg hany, List.filter_append]
    simp

/-- The full effect of one relaxation step on a well-formed dict: it
succeeds, preserves the key list and value non-negativity, touches only the
task's own key, never decreases a value, establishes the task's constraint,
and is the identity exactly when the constraint already held. -/
theorem rankStep_effects {r : Dict} {ch : Bool} {t : Task}
    (hid : taskId t ∈ dkeys r)
    (hpreds : ∀ p ∈ taskPreds t, p ∈ dkeys r)
    (hid0 : taskId t ≠ 0)
    (hself : taskId t ∉ taskPreds t)
    (hnn : valsNonneg r) :
    ∃ r' ch', rankStep r ch t = some (r', ch') ∧
      dkeys r' = dkeys r ∧ valsNonneg r' ∧
      (∀ k, k ≠ taskId t → dlookup r' k = dlookup r k) ∧
      (∀ k c, dlookup r k = some c → ∃ c', dlookup r' k = some c' ∧ c ≤ c') ∧
      taskOk r' t ∧
      (taskOk r t → r' = r ∧ ch' = ch) := by
  obtain ⟨cur, hcur⟩ := Option.isSome_iff_exists.mp (dlookup_isSome_iff.mpr hid)
  have hcurnn : 0 ≤ cur := hnn _ (dlookup_mem hcur)
  by_cases hp : taskPreds t = []
  · by_cases hz : cur = 0
    · refine ⟨dinsert (taskId t) 1 r, true, ?_, ?_, ?_, ?_, ?_, ?_, ?_⟩
      · unfold rankStep
        rw [if_pos hp, hcur]
        simp only [Option.bind_eq_bind, Option.some_bind]
        rw [if_pos ⟨hid0, hz⟩]
      · exact dkeys_dinsert_of_mem hid
      · exact dinsert_valsNonneg hnn (by omega)
      · intro k hk
        rw [dlookup_dinsert, if_neg hk]
      · intro k c hkc
        by_cases hk : k = taskId t
        · subst hk
          rw [hcur] at hkc
          injection hkc with hkc
          exact ⟨1, by rw [dlookup_dinsert, if_pos rfl], by omega⟩
        · exact ⟨c, by rw [dlookup_dinsert, if_neg hk]; exact hkc, le_refl c⟩
      · unfold taskOk
        rw [if_pos hp]
        exact ⟨1, by rw [dlookup_dinsert, if_pos rfl], one_ne_zero⟩
      · intro hok
        exfalso
        unfold taskOk at hok
        rw [if_pos hp] at hok
        obtain ⟨c, hc, hcne⟩ := hok
        rw [hcur] at hc
        injection hc with hc
        exact hcne (by omega)
    · refine ⟨r, ch, ?_, rfl, hnn, fun k _ => rfl,
        fun k c hkc => ⟨c, hkc, le_refl c⟩, ?_, fun _ => ⟨rfl, rfl⟩⟩
      · unfold rankStep
        rw [if_pos hp, hcur]
        simp only [Option.bind_eq_bind, Option.some_bind]
        rw [if_neg (fun hc => hz hc.2)]
      · unfold taskOk
        rw [if_pos hp]
        exact ⟨cur, hcur, hz⟩
  · obtain ⟨vals, hvals⟩ := @mapM_total Int Int (dlookup r) (taskPreds t)
      (fun p hpm => dlookup_isSome_iff.mpr (hpreds p hpm))
    cases vals with
    | nil =>
      exfalso
      cases hpl : taskPreds t with
      | nil => exact hp hpl
      | cons p0 ps =>
        rw [hpl] at hvals
        rcases mapM_mem hvals p0 (List.mem_cons_self _ _) with ⟨y, _, hym⟩
        simp at hym
    | cons v vs =>
      have hvalsnn : ∀ x ∈ v :: vs, 0 ≤ x := by
        intro x hx
        rcases mapM_mem_rev hvals x hx with ⟨p, hpm, hpx⟩
        exact hnn _ (dlookup_mem hpx)
      have hfr : ∀ p ∈ taskPreds t, p ≠ taskId t :=
        fun p hpm hc => hself (hc ▸ hpm)
      have hmax0 : 0 ≤ maxList v vs := hvalsnn _ (maxList_spec v vs).1
      by_cases hgt : maxList v vs + 1 > cur
      · refine ⟨dinsert (taskId t) (maxList v vs + 1) r, true,
          ?_, ?_, ?_, ?_, ?_, ?_, ?_⟩
        · unfold rankStep
          rw [if_neg hp, hvals]
          simp only [Option.bind_eq_bind, Option.some_bind]
          rw [hcur]
          simp only [Option.bind_eq_bind, Option.some_bind]
          rw [if_pos hgt]
        · exact dkeys_dinsert_of_mem hid
        · exact dinsert_valsNonneg hnn (by omega)
        · intro k hk
          rw [dlookup_dinsert, if_neg hk]
        · intro k c hkc
          by_cases hk : k = taskId t
          · subst hk
            rw [hcur] at hkc
            injection hkc with hkc
            refine ⟨maxList v vs + 1, by rw [dlookup_dinsert, if_pos rfl], ?_⟩
            omega
          · exact ⟨c, by rw [dlookup_dinsert, if_neg hk]; exact hkc, le_refl c⟩
        · unfold taskOk
          rw [if_neg hp]
          refine ⟨maxList v vs + 1, by rw [dlookup_dinsert, if_pos rfl], ?_⟩
          intro p hpm
          obtain ⟨rp, hrp, hrpmem⟩ := mapM_mem hvals p hpm
          refine ⟨rp, ?_, ?_⟩
          · rw [dlookup_dinsert, if_neg (hfr p hpm)]
            exact hrp
          · have := (maxList_spec v vs).2 rp hrpmem
            omega
        · intro hok
          exfalso
          unfold taskOk at hok
          rw [if_neg hp] at hok
          obtain ⟨c, hc, hall⟩ := hok
          rw [hcur] at hc
          injection hc with hc
          obtain ⟨p, hpm, hplook⟩ := mapM_mem_rev hvals _ (maxList_spec v vs).1
          obtain ⟨rp, hrp, hle⟩ := hall p hpm
          rw [hplook] at hrp
          injection hrp with hrp
          omega
      · refine ⟨r, ch, ?_, rfl, hnn, fun k _ => rfl,
          fun k c hkc => ⟨c, hkc, le_refl c⟩, ?_, fun _ => ⟨rfl, rfl⟩⟩
        · unfold rankStep
          rw [if_neg hp, hvals]
          simp only [Option.bind_eq_bind, Option.some_bind]
          rw [hcur]
          simp only [Option.bind_eq_bind, Option.some_bind]
          rw [if_neg hgt]
        · unfold taskOk
          rw [if_neg hp]
          refine ⟨cur, hcur, ?_⟩
          intro p hpm
          obtain ⟨rp, hrp, hrpmem⟩ := mapM_mem hvals p hpm
          refine ⟨rp, hrp, ?_⟩
          have := (maxList_spec v vs).2 rp hrpmem
          omega

/-- The combined effect of the per-task fold of one relaxation pass: it
succeeds; the key list, value non-negativity and the constraints of a
predecessor-closed set `S` of settled ids are preserved; `S`-keyed entries
are frozen; no value decreases; every task whose predecessors all lie in
`S` ends the fold with its constraint established; and when every task id
lies in `S` the fold is the identity. -/
theorem rankFold_effects {tasks : List Task} {K : List Int} {S : Int → Prop}
    (hgood : ∀ t ∈ tasks, taskId t ∈ K ∧ taskId t ≠ 0 ∧
      taskId t ∉ taskPreds t ∧ ∀ p ∈ taskPreds t, p ∈ K)
    (hcl : ∀ t ∈ tasks, S (taskId t) → ∀ p ∈ taskPreds t, S p) :
    ∀ (l : List Task), (∀ t ∈ l, t ∈ tasks) →
      ∀ (st : Dict × Bool), dkeys st.1 = K → valsNonneg st.1 →
      (∀ t ∈ tasks, S (taskId t) → taskOk st.1 t) →
      ∃ res, l.foldlM (fun (st : Dict × Bool) t => rankStep st.1 st.2 t) st
          = some res ∧
        dkeys res.1 = K ∧ valsNonneg res.1 ∧
        (∀ t ∈ tasks, S (taskId t) → taskOk res.1 t) ∧
        (∀ k, S k → dlookup res.1 k = dlookup st.1 k) ∧
        (∀ k c, dlookup st.1 k = some c →
          ∃ c', dlookup res.1 k = some c' ∧ c ≤ c') ∧
        (∀ t ∈ l, (∀ p ∈ taskPreds t, S p) → taskOk res.1 t) ∧
        ((∀ t ∈ tasks, S (taskId t)) → res = st) := by
  intro l
  induction l with
  | nil =>
    intro _ st h1 h2 h3
    exact ⟨st, rfl, h1, h2, h3, fun k _ => rfl,
      fun k c hc => ⟨c, hc, le_refl c⟩,
      fun t ht _ => absurd ht (List.not_mem_nil t), fun _ => rfl⟩
  | cons t₁ rest ih =>
    intro hsubl st hK hnn hSok
    obtain ⟨r0, ch0⟩ := st
    dsimp only at hK hnn hSok
    have ht₁ : t₁ ∈ tasks := hsubl t₁ (List.mem_cons_self _ _)
    obtain ⟨hid₁K, hid₁0, hself₁, hpreds₁K⟩ := hgood t₁ ht₁
    obtain ⟨r', ch', hstep, hk', hnn', hother, hmono₁, hok₁, hident₁⟩ :=
      @rankStep_effects r0 ch0 t₁
        (by rw [hK]; exact hid₁K)
        (by intro p hp; rw [hK]; exact hpreds₁K p hp)
        hid₁0 hself₁ hnn
    have hfroz₁ : ∀ k, S k → dlookup r' k = dlookup r0 k := by
      intro k hk
      by_cases hS₁ : S (taskId t₁)
      · rcases hident₁ (hSok t₁ ht₁ hS₁) with ⟨he, -⟩
        rw [he]
      · exact hother k (fun hc => hS₁ (hc ▸ hk))
    have hSok' : ∀ t ∈ tasks, S (taskId t) → taskOk r' t := by
      intro t ht hS
      exact taskOk_congr (hSok t ht hS) (hfroz₁ _ hS)
        (fun p hp => hfroz₁ p (hcl t ht hS p hp))
    obtain ⟨res, hfold, hKr, hnnr, hSokr, hfrozr, hmonor, hnewr, hidentr⟩ :=
      ih (fun t ht => hsubl t (List.mem_cons_of_mem _ ht)) (r', ch')
        (hk'.trans hK) hnn' hSok'
    refine ⟨res, ?_, hKr, hnnr, hSokr, ?_, ?_, ?_, ?_⟩
    · rw [List.foldlM_cons]
      dsimp only
      rw [hstep]
      simp only [Option.bind_eq_bind, Option.some_bind]
      exact hfold
    · intro k hk
      rw [hfrozr k hk, hfroz₁ k hk]
    · intro k c hc
      obtain ⟨c1, hc1, hle1⟩ := hmono₁ k c hc
      obtain ⟨c2, hc2, hle2⟩ := hmonor k c1 hc1
      exact ⟨c2, hc2, le_trans hle1 hle2⟩
    · intro t ht hall
      rcases List.mem_cons.mp ht with rfl | htr
      · exact taskOk_mono hok₁ (fun p hp => hfrozr p (hall p hp)) hmonor hnn'
      · exact hnewr t htr hall
    · intro hallS
      rcases hident₁ (hSok t₁ ht₁ (hallS t₁ ht₁)) with ⟨he, hc⟩
      have hpair : (r', ch') = (r0, ch0) := by rw [he, hc]
      rw [hidentr hallS, hpair]

/-- The combined effect of one full relaxation pass on a well-formed dict:
it succeeds, preserves the key list and non-negativity, establishes the
constraint of every task whose predecessors lie in the settled set `S`,
leaves the ω entry consistent with the pass's closing update, and reports
no change when every task was settled and ω was already consistent. -/
theorem rankPass_effects {tasks : List Task} {S : Int → Prop} {r : Dict}
    (hgood : ∀ t ∈ tasks, taskId t ≠ 0 ∧ taskId t ∉ taskPreds t ∧
      ∀ p ∈ taskPreds t, p ∈ taskIds tasks)
    (hcl : ∀ t ∈ tasks, S (taskId t) → ∀ p ∈ taskPreds t, S p)
    (hK : dkeys r = dkeys (ranksStart tasks))
    (hnn : valsNonneg r)
    (hSok : ∀ t ∈ tasks, S (taskId t) → taskOk r t) :
    ∃ r' ch, rankPass tasks (omegaKey tasks) r = some (r', ch) ∧
      dkeys r' = dkeys (ranksStart tasks) ∧ valsNonneg r' ∧
      (∀ t ∈ tasks, (∀ p ∈ taskPreds t, S p) → taskOk r' t) ∧
      omOk tasks r' ∧
      ((∀ t ∈ tasks, S (taskId t)) → omOk tasks r → ch = false) := by
  have hgood' : ∀ t ∈ tasks, taskId t ∈ dkeys (ranksStart tasks) ∧
      taskId t ≠ 0 ∧ taskId t ∉ taskPreds t ∧
      ∀ p ∈ taskPreds t, p ∈ dkeys (ranksStart tasks) := by
    intro t ht
    obtain ⟨h0, hsf, hpr⟩ := hgood t ht
    refine ⟨?_, h0, hsf, ?_⟩
    · rw [mem_dkeys_ranksStart]
      exact Or.inr (Or.inr (List.mem_map_of_mem taskId ht))
    · intro p hp
      rw [mem_dkeys_ranksStart]
      exact Or.inr (Or.inr (hpr p hp))
  obtain ⟨⟨r1, ch1⟩, hfold, hk1, hnn1, hSok1, hfroz1, hmono1, hnew1, hident1⟩ :=
    rankFold_effects hgood' hcl tasks (fun t ht => ht) (r, false) hK hnn hSok
  have homlt : ∀ k ∈ taskIds tasks, k ≠ omegaKey tasks := by
    intro k hk hc
    have := taskId_lt_omegaKey hk
    omega
  have h0keys : (0 : Int) ∈ dkeys r1 := by
    rw [hk1, mem_dkeys_ranksStart]
    exact Or.inr (Or.inl rfl)
  obtain ⟨p0, hp0mem, hp0key⟩ := mem_dkeys.mp h0keys
  have hp0f : p0 ∈ r1.filter (fun p => p.1 ≠ omegaKey tasks) := by
    rw [List.mem_filter]
    refine ⟨hp0mem, ?_⟩
    have hpos := omegaKey_pos tasks
    simp only [hp0key, decide_eq_true_eq]
    intro hc
    omega
  have hothmem : p0.2 ∈ (r1.filter (fun p => p.1 ≠ omegaKey tasks)).map
      (fun p => p.2) := List.mem_map_of_mem _ hp0f
  have homkeys : omegaKey tasks ∈ dkeys r1 := by
    rw [hk1, mem_dkeys_ranksStart]
    exact Or.inl rfl
  obtain ⟨curOm, hcurOm⟩ :=
    Option.isSome_iff_exists.mp (dlookup_isSome_iff.mpr homkeys)
  cases hoth : (r1.filter (fun p => p.1 ≠ omegaKey tasks)).map (fun p => p.2)
    with
  | nil =>
    rw [hoth] at hothmem
    exact absurd hothmem (List.not_mem_nil _)
  | cons v vs =>
    have hred : rankPass tasks (omegaKey tasks) r =
        some (if maxList v vs + 1 ≠ curOm
          then (dinsert (omegaKey tasks) (maxList v vs + 1) r1, true)
          else (r1, ch1)) := by
      cases hpassv : rankPass tasks (omegaKey tasks) r with
      | none =>
        exfalso
        unfold rankPass at hpassv
        rw [hfold] at hpassv
        simp only [Option.bind_eq_bind, Option.some_bind] at hpassv
        rw [hoth] at hpassv
        rw [hcurOm] at hpassv
        simp only [Option.bind_eq_bind, Option.some_bind] at hpassv
        by_cases hne : maxList v vs + 1 ≠ curOm
        · rw [if_pos hne] at hpassv
          exact absurd hpassv (by simp)
        · rw [if_neg hne] at hpassv
          exact absurd hpassv (by simp)
      | some st =>
        unfold rankPass at hpassv
        rw [hfold] at hpassv
        simp only [Option.bind_eq_bind, Option.some_bind] at hpassv
        rw [hoth] at hpassv
        rw [hcurOm] at hpassv
        simp only [Option.bind_eq_bind, Option.some_bind] at hpassv
        by_cases hne : maxList v vs + 1 ≠ curOm
        · rw [if_pos hne] at hpassv
          rw [if_pos hne]
          injection hpassv with h
          rw [h]
        · rw [if_neg hne] at hpassv
          rw [if_neg hne]
          injection hpassv with h
          rw [h]
    have homid : ∀ t ∈ tasks, taskOk r1 t →
        taskOk (dinsert (omegaKey tasks) (maxList v vs + 1) r1) t := by
      intro t ht hok
      refine taskOk_congr hok ?_ ?_
      · rw [dlookup_dinsert,
          if_neg (homlt _ (List.mem_map_of_mem taskId ht))]
      · intro p hp
        rw [dlookup_dinsert, if_neg (homlt _ ((hgood t ht).2.2 p hp))]
    by_cases hne : maxList v vs + 1 ≠ curOm
    · rw [if_pos hne] at hred
      refine ⟨dinsert (omegaKey tasks) (maxList v vs + 1) r1, true, hred,
        ?_, ?_, ?_, ?_, ?_⟩
      · rw [dkeys_dinsert_of_mem homkeys]
        exact hk1
      · have hmax0 : 0 ≤ maxList v vs := by
          have hmem := (maxList_spec v vs).1
          rw [← hoth] at hmem
          obtain ⟨q, hq, hqv⟩ := List.mem_map.mp hmem
          rw [← hqv]
          exact hnn1 q (List.mem_filter.mp hq).1
        exact dinsert_valsNonneg hnn1 (by omega)
      · intro t ht hall
        exact homid t ht (hnew1 t ht hall)
      · refine ⟨v, vs, ?_, ?_⟩
        · rw [filter_ne_dinsert_self]
          exact hoth
        · rw [dlookup_dinsert, if_pos rfl]
      · intro hallS homr
        exfalso
        have hid := hident1 hallS
        have hr1 : r1 = r := congrArg Prod.fst hid
        rw [hr1] at hoth hcurOm
        obtain ⟨v', vs', hoth', hlook'⟩ := homr
        rw [hoth] at hoth'
        injection hoth' with h1 h2
        rw [hlook'] at hcurOm
        injection hcurOm with hcurOm
        rw [← h1, ← h2] at hcurOm
        exact hne hcurOm
    · rw [if_neg hne] at hred
      push_neg at hne
      refine ⟨r1, ch1, hred, hk1, hnn1, hnew1, ?_, ?_⟩
      · exact ⟨v, vs, hoth, by rw [hcurOm, hne]⟩
      · intro hallS _
        exact congrArg Prod.snd (hident1 hallS)

/-- With enough fuel the relaxation loop reaches an unchanged pass: the
vertices settle level by level along the predecessor arcs (the level
measured by `L`), every task is settled once the fuel left is down to 1,
and the closing pass confirms the ω entry and reports no change. -/
theorem rankLoop_terminates {tasks : List Task}
    (hgood : ∀ t ∈ tasks, taskId t ≠ 0 ∧ taskId t ∉ taskPreds t ∧
      ∀ p ∈ taskPreds t, p ∈ taskIds tasks)
    (L : Int → Nat)
    (hLedge : ∀ u v, pEdge tasks u v → L u < L v)
    (hLbound : ∀ v ∈ taskIds tasks, L v < tasks.length) :
    ∀ k : Nat, 1 ≤ k → ∀ r : Dict,
      dkeys r = dkeys (ranksStart tasks) → valsNonneg r →
      (∀ t ∈ tasks, L (taskId t) + k ≤ tasks.length + 1 → taskOk r t) →
      (k ≤ tasks.length + 1 → omOk tasks r) →
      ∃ r', rankLoop tasks (omegaKey tasks) k r = some r' := by
  intro k
  induction k with
  | zero =>
    intro h1
    exact absurd h1 (by omega)
  | succ k ih =>
    intro _ r hK hnn hsettled homok
    obtain ⟨r', ch, hpass, hK', hnn', hnew', homok', hstop⟩ :=
      @rankPass_effects tasks (fun x => x ∈ taskIds tasks ∧
          L x + (k + 1) ≤ tasks.length + 1) r
        hgood
        (by
          intro t ht hS p hp
          refine ⟨(hgood t ht).2.2 p hp, ?_⟩
          have := hLedge p (taskId t) ⟨t, ht, rfl, hp⟩
          omega)
        hK hnn
        (by
          intro t ht hS
          exact hsettled t ht hS.2)
    unfold rankLoop
    rw [hpass]
    simp only [Option.bind_eq_bind, Option.some_bind]
    by_cases hch : ch = true
    · rcases Nat.eq_zero_or_pos k with hk0 | hkpos
      · exfalso
        subst hk0
        have hall : ∀ t ∈ tasks, taskId t ∈ taskIds tasks ∧
            L (taskId t) + (0 + 1) ≤ tasks.length + 1 := by
          intro t ht
          have hmem : taskId t ∈ taskIds tasks := List.mem_map_of_mem taskId ht
          have := hLbound _ hmem
          exact ⟨hmem, by omega⟩
        have hfalse := hstop hall (homok (by omega))
        rw [hch] at hfalse
        exact absurd hfalse (by simp)
      · rw [if_pos hch]
        refine ih (by omega) r' hK' hnn' ?_ (fun _ => homok')
        intro t ht hlk
        refine hnew' t ht ?_
        intro p hp
        refine ⟨(hgood t ht).2.2 p hp, ?_⟩
        have := hLedge p (taskId t) ⟨t, ht, rfl, hp⟩
        omega
    · rw [if_neg hch]
      exact ⟨r', rfl⟩

/-! ## Concrete claim theorems -/

/-- C1: on the scenario `[(1,3,[]), (2,2,[1]), (3,4,[1]), (4,1,[2,3])]`, the
pipeline computes exactly the claimed ranks and earliest dates, and the
claimed latest dates for the tasks and ω — but the latest-date dict has no
entry for α, so `calculate_slacks` aborts with a failed lookup at vertex 0
and no slack dict is ever produced (the claimed α slack and critical path
are unreachable). -/
theorem C1_scenario_pipeline :
    assign_ranks scenTasks = some scenRanks ∧
    compute_schedules scenTasks scenRanks = some (scenEarliest, scenLatest) ∧
    dlookup scenEarliest 0 = some 0 ∧
    dlookup scenLatest 0 = none ∧
    calculate_slacks scenEarliest scenLatest = none := by
  refine ⟨by decide, by decide, by decide, by decide, by decide⟩

/-- C2: the earliest/latest pair that `compute_schedules` produces on the
specification's scenario has the vertex 0 in the earliest dict only, and
`calculate_slacks` — which iterates over the union of both key sets —
performs a failing lookup there instead of returning a slack dict. -/
theorem C2_slack_out_of_domain :
    compute_schedules scenTasks scenRanks = some (scenEarliest, scenLatest) ∧
    (0 : Int) ∈ dkeys scenEarliest ∧
    (0 : Int) ∉ dkeys scenLatest ∧
    calculate_slacks scenEarliest scenLatest = none := by
  refine ⟨by decide, by decide, by decide, by decide⟩

/-- C4: on a task set whose task 2 references the absent predecessor 9,
`build_adjacency_matrix` does not fail: the predecessor lookup misses, the
arc is silently dropped, a normal matrix is returned and validation
(`detect_cycle`, `has_negative_arcs`) runs on it. -/
theorem C4_unresolved_pred_dropped :
    findDur 9 unresTasks = none ∧
    build_adjacency_matrix unresTasks = some unresMatrix ∧
    detect_cycle unresMatrix = false ∧
    has_negative_arcs unresTasks = false := by
  refine ⟨by decide, by decide, by decide, by decide⟩

/-- C5: for every task set and its built adjacency matrix, `detect_cycle`
returns true exactly when the matrix graph contains a directed cycle; in
particular it returns true for the mutual dependency `1 ↔ 2` and false for
the empty task set. -/
theorem C5_detect_cycle_iff_cycle :
    (∀ (tasks : List Task) (M : Matrix), build_adjacency_matrix tasks = some M →
      (detect_cycle M = true ↔ HasCycleM M)) ∧
    build_adjacency_matrix cycTasks = some cycMatrix ∧
    detect_cycle cycMatrix = true ∧
    build_adjacency_matrix ([] : List Task) = some emptyMatrix ∧
    detect_cycle emptyMatrix = false := by
  refine ⟨?_, by decide, by decide, by decide, by decide⟩
  intro tasks M h
  exact detect_cycle_iff (build_shape h).2

/-- Witness for C5, instantiated at the empty task set's matrix. -/
theorem C5_detect_cycle_iff_cycle_witness :
    detect_cycle emptyMatrix = true ↔ HasCycleM emptyMatrix :=
  C5_detect_cycle_iff_cycle.1 [] emptyMatrix (by decide)

/-- C6: the scenario task set is acyclic with non-negative durations, yet no
slack dict is computed at all: `calculate_slacks` fails on the vertex α,
which has an earliest date but no latest date. -/
theorem C6_no_slack_map_produced :
    has_negative_arcs scenTasks = false ∧
    build_adjacency_matrix scenTasks = some scenMatrix ∧
    detect_cycle scenMatrix = false ∧
    assign_ranks scenTasks = some scenRanks ∧
    compute_schedules scenTasks scenRanks = some (scenEarliest, scenLatest) ∧
    calculate_slacks scenEarliest scenLatest = none := by
  refine ⟨by decide, by decide, by decide, by decide, by decide, by decide⟩

/-- The specification's scenario is acyclic: along every arc of its
scheduling graph the vertex id strictly increases. -/
theorem scenTasks_acyclic : Acyclic scenTasks := by
  apply acyclic_of_measure _ (fun v => v)
  intro u v h
  have homega : omegaKey scenTasks = 5 := by decide
  rcases h with ⟨hu, t, ht, hid, hp⟩ | ⟨t, ht, hid, hm, hids⟩ | ⟨hv, hm, hns⟩
  · subst hu
    simp only [scenTasks, List.mem_cons, List.not_mem_nil, or_false] at ht
    rcases ht with rfl | rfl | rfl | rfl <;>
      simp only [taskPreds] at hp <;>
      simp only [taskId] at hid <;>
      omega
  · simp only [scenTasks, List.mem_cons, List.not_mem_nil, or_false] at ht
    rcases ht with rfl | rfl | rfl | rfl <;>
      simp only [taskPreds, List.mem_cons, List.not_mem_nil, or_false,
        List.mem_singleton] at hm <;>
      simp only [taskId] at hid <;>
      omega
  · rw [homega] at hv
    simp only [taskIds, scenTasks, taskId, List.map_cons, List.map_nil,
      List.mem_cons, List.not_mem_nil, or_false, List.mem_singleton] at hm
    omega

/-- C7: for every acyclic task set on which `assign_ranks` returns a rank
dict, the ranks are strictly monotone along every arc of the scheduling
graph: α→t for predecessor-free tasks, p→t for each resolvable predecessor,
and t→ω for each terminal task. -/
theorem C7_rank_monotone (tasks : List Task) (hacyc : Acyclic tasks)
    (rk : Dict) (h : assign_ranks tasks = some rk) :
    ∀ u v, gEdge tasks u v → ∃ ru rv, dlookup rk u = some ru ∧
      dlookup rk v = some rv ∧ ru < rv := by
  obtain ⟨rfix, hloop, hsort⟩ := assign_ranks_some h
  have hkeys : dkeys rfix = dkeys (ranksStart tasks) := rankLoop_dkeys hloop
  have hpass := rankLoop_fix hloop
  have hnodup : (dkeys rfix).Nodup := by
    rw [hkeys]
    exact ranksStart_keys_nodup tasks
  have hlook : ∀ k, dlookup rk k = dlookup rfix k := by
    intro k
    rw [hsort]
    exact dlookup_of_perm (sortPairs_perm rfix) hnodup k
  have hnn : valsNonneg rfix :=
    rankLoop_valsNonneg (ranksStart_valsNonneg tasks) hloop
  have hsteps := rankFold_steps (rankPass_fix_dict hpass).2
  obtain ⟨co, hco, hub⟩ := rankPass_fix_omega hpass
  have h0ids : (0 : Int) ∉ taskIds tasks := by
    intro h0
    exact hacyc (cycle_of_zero_task hpass hkeys h0)
  have hr0 : dlookup rfix 0 = some 0 :=
    rankLoop_alpha h0ids (by
      have := omegaKey_pos tasks
      omega) hloop (ranksStart_alpha tasks)
  intro u v hedge
  rcases hedge with ⟨hu, t, ht, hid, hp⟩ | ⟨t, ht, hid, hpm, hids⟩ |
    ⟨hv, hids, hns⟩
  · subst hu
    obtain ⟨cur, hcur, hor⟩ := rankStep_fix_nopreds (hsteps t ht) hp
    have hidne : taskId t ≠ 0 := by
      intro hz
      exact h0ids (by
        rw [← hz]
        exact List.mem_map_of_mem taskId ht)
    have hcurne : cur ≠ 0 := by
      rcases hor with h1 | h1
      · exact absurd h1 hidne
      · exact h1
    have hcurnn : 0 ≤ cur := hnn _ (dlookup_mem hcur)
    refine ⟨0, cur, ?_, ?_, ?_⟩
    · rw [hlook]
      exact hr0
    · rw [hlook, ← hid]
      exact hcur
    · omega
  · obtain ⟨cur, hcur, hpred⟩ := rankStep_fix_preds (hsteps t ht) (by
      intro hc
      rw [hc] at hpm
      simp at hpm)
    obtain ⟨rp, hrp, hle⟩ := hpred u hpm
    refine ⟨rp, cur, ?_, ?_, ?_⟩
    · rw [hlook]
      exact hrp
    · rw [hlook, ← hid]
      exact hcur
    · omega
  · subst hv
    have humem : u ∈ dkeys rfix := by
      rw [hkeys, mem_dkeys_ranksStart]
      exact Or.inr (Or.inr hids)
    obtain ⟨ru, hru⟩ :=
      Option.isSome_iff_exists.mp (dlookup_isSome_iff.mpr humem)
    have hune : u ≠ omegaKey tasks := by
      have := taskId_lt_omegaKey hids
      omega
    have hlt := hub (u, ru) (dlookup_mem hru) (by simpa using hune)
    refine ⟨ru, co, ?_, ?_, ?_⟩
    · rw [hlook]
      exact hru
    · rw [hlook]
      exact hco
    · simpa using hlt

/-- Witness for C7 at the α→1 arc of the scenario. -/
theorem C7_rank_monotone_witness :
    ∃ ru rv, dlookup scenRanks 0 = some ru ∧ dlookup scenRanks 1 = some rv ∧
      ru < rv :=
  C7_rank_monotone scenTasks scenTasks_acyclic scenRanks (by decide) 0 1
    (Or.inl ⟨rfl, (1, 3, []), by simp [scenTasks], rfl, rfl⟩)

/-- C8 counterexample: the task set `[(1,1,[2])]` is acyclic (its only arc
is `1 → ω`; the dangling predecessor 2 places no arc), yet the relaxation
loop never stabilises within the vertex-count bound: the rank of task 1 and
the rank of ω (whose key the dangling predecessor 2 collides with) bump
each other up forever. -/
theorem C8_counterexample :
    Acyclic divTasks ∧ assign_ranks divTasks = none := by
  constructor
  · apply acyclic_of_measure _ (fun v => v)
    intro u v h
    have homega : omegaKey divTasks = 2 := by decide
    rcases h with ⟨hu, t, ht, hid, hp⟩ | ⟨t, ht, hid, hm, hids⟩ | ⟨hv, hm, hns⟩
    · simp only [divTasks, List.mem_singleton] at ht
      subst ht
      simp [taskPreds] at hp
    · simp only [divTasks, List.mem_singleton] at ht
      subst ht
      simp only [taskPreds, List.mem_singleton] at hm
      simp only [taskIds, divTasks, taskId, List.map_cons, List.map_nil,
        List.mem_singleton] at hids
      omega
    · simp only [taskIds, divTasks, taskId, List.map_cons, List.map_nil,
        List.mem_singleton] at hm
      rw [homega] at hv
      omega
  · decide

/-- C8 (amended): for every acyclic task set in which every referenced
predecessor id exists in the task set (the TaskSet invariant of the
specification), the relaxation loop of `assign_ranks` reaches an unchanged
pass within vertex-count passes, so `assign_ranks` — whose fuel is the
vertex count — returns a rank dict. -/
theorem C8_amended (tasks : List Task)
    (hres : ∀ t ∈ tasks, ∀ p ∈ taskPreds t, p ∈ taskIds tasks)
    (hacyc : Acyclic tasks) :
    ∃ rk, assign_ranks tasks = some rk := by
  classical
  have h0 : (0 : Int) ∉ taskIds tasks := fun h => hacyc (zero_id_cycle hres h)
  have hgood : ∀ t ∈ tasks, taskId t ≠ 0 ∧ taskId t ∉ taskPreds t ∧
      ∀ p ∈ taskPreds t, p ∈ taskIds tasks := by
    intro t ht
    refine ⟨?_, ?_, hres t ht⟩
    · intro hz
      exact h0 (hz ▸ List.mem_map_of_mem taskId ht)
    · intro hself
      exact hacyc ⟨taskId t,
        Relation.TransGen.single (pEdge_gEdge hres ⟨t, ht, rfl, hself⟩)⟩
  have hirr : ∀ v, ¬ Relation.TransGen (pEdge tasks) v v := by
    intro v hv
    exact hacyc ⟨v,
      Relation.TransGen.mono (fun a b h => pEdge_gEdge hres h) hv⟩
  obtain ⟨L, hLedge, hLbound⟩ : ∃ L : Int → Nat,
      (∀ u v, pEdge tasks u v → L u < L v) ∧
      (∀ v ∈ taskIds tasks, L v < tasks.length) := by
    refine ⟨fun v => ((taskIds tasks).toFinset.filter
      (fun u => Relation.TransGen (pEdge tasks) u v)).card, ?_, ?_⟩
    · intro u v he
      have huids : u ∈ (taskIds tasks).toFinset := by
        rcases he with ⟨t, ht, hid, hp⟩
        exact List.mem_toFinset.mpr (hres t ht u hp)
      have hsub : (taskIds tasks).toFinset.filter
          (fun w => Relation.TransGen (pEdge tasks) w u) ⊆
          (taskIds tasks).toFinset.filter
          (fun w => Relation.TransGen (pEdge tasks) w v) := by
        intro w hw
        rw [Finset.mem_filter] at hw ⊢
        exact ⟨hw.1, hw.2.tail he⟩
      have hmem : u ∈ (taskIds tasks).toFinset.filter
          (fun w => Relation.TransGen (pEdge tasks) w v) := by
        rw [Finset.mem_filter]
        exact ⟨huids, Relation.TransGen.single he⟩
      have hnmem : u ∉ (taskIds tasks).toFinset.filter
          (fun w => Relation.TransGen (pEdge tasks) w u) := by
        rw [Finset.mem_filter]
        rintro ⟨-, hc⟩
        exact hirr u hc
      exact Finset.card_lt_card
        ((Finset.ssubset_iff_of_subset hsub).mpr ⟨u, hmem, hnmem⟩)
    · intro v hv
      dsimp only
      have hvF : v ∈ (taskIds tasks).toFinset := List.mem_toFinset.mpr hv
      have hsub : (taskIds tasks).toFinset.filter
          (fun u => Relation.TransGen (pEdge tasks) u v) ⊆
          (taskIds tasks).toFinset.erase v := by
        intro w hw
        rw [Finset.mem_filter] at hw
        rw [Finset.mem_erase]
        refine ⟨?_, hw.1⟩
        intro hwv
        rw [hwv] at hw
        exact hirr v hw.2
      have h1 := Finset.card_le_card hsub
      have h2 := Finset.card_erase_lt_of_mem hvF
      have h3 := List.toFinset_card_le (taskIds tasks)
      have h4 : (taskIds tasks).length = tasks.length := List.length_map _ _
      omega
  obtain ⟨rfix, hrfix⟩ := rankLoop_terminates hgood L hLedge hLbound
    (count_vertices tasks) (by simp only [count_vertices]; omega)
    (ranksStart tasks) rfl (ranksStart_valsNonneg tasks)
    (by
      intro t ht hk
      exfalso
      simp only [count_vertices] at hk
      omega)
    (by
      intro hk
      exfalso
      simp only [count_vertices] at hk
      omega)
  refine ⟨sortPairs rfix, ?_⟩
  unfold assign_ranks
  rw [hrfix]
  rfl

/-- Witness for C8 (amended) at the specification's scenario. -/
theorem C8_amended_witness : ∃ rk, assign_ranks scenTasks = some rk :=
  C8_amended scenTasks (by decide) scenTasks_acyclic

/-- C9 counterexample: for the single task with id 2,
`build_adjacency_matrix` places the task→ω arc at row/column 2 of a 3×3
matrix (index `|tasks|+1 = 2`), while `assign_ranks` and
`compute_schedules` use the ω key `max(task id)+1 = 3`. -/
theorem C9_counterexample :
    buildOmega gapTasks = 2 ∧
    omegaKey gapTasks = 3 ∧
    buildOmega gapTasks ≠ omegaKey gapTasks ∧
    build_adjacency_matrix gapTasks = some gapMatrix ∧
    gapMatrix.length = 3 ∧
    cellAt gapMatrix 2 2 = some 1 ∧
    assign_ranks gapTasks = some [(0, 0), (2, 1), (3, 2)] ∧
    maxKeys [(0, 0), (2, 1), (3, 2)] = some 3 := by
  refine ⟨by decide, by decide, by decide, by decide, by decide, by decide,
    by decide, by decide⟩

/-- C9 (amended): `assign_ranks` and `compute_schedules` do use the same ω
key `max({0} ∪ task ids) + 1` (the claim's `max(task id)+1` for positive
ids), but `build_adjacency_matrix` places the task→ω arcs at row/column
index `|tasks|+1`; the two coincide exactly when `max({0} ∪ ids) = |tasks|`,
e.g. when the ids are 1..n. -/
theorem C9_amended (tasks : List Task) (hne : tasks ≠ []) (rk : Dict)
    (h : assign_ranks tasks = some rk) :
    maxKeys rk = some (omegaKey tasks) ∧
    omegaKey tasks = maxList 0 (taskIds tasks) + 1 ∧
    (buildOmega tasks = omegaKey tasks ↔
      maxList 0 (taskIds tasks) = (tasks.length : Int)) := by
  refine ⟨maxKeys_assign_ranks h, omegaKey_eq tasks, ?_⟩
  rw [omegaKey_eq, buildOmega]
  omega

/-- Witness for the amended C9, at the single task with id 1. -/
theorem C9_amended_witness :
    maxKeys [(0, 0), (1, 1), (2, 2)] = some (omegaKey [((1 : Int), 1, [])]) ∧
    omegaKey [((1 : Int), 1, [])] =
      maxList 0 (taskIds [((1 : Int), 1, [])]) + 1 ∧
    (buildOmega [((1 : Int), 1, [])] = omegaKey [((1 : Int), 1, [])] ↔
      maxList 0 (taskIds [((1 : Int), 1, [])]) =
        (([((1 : Int), 1, ([] : List Int))].length : Int))) :=
  C9_amended [((1 : Int), 1, [])] (by simp) [(0, 0), (1, 1), (2, 2)] (by decide)

/-- C3: whenever the pipeline reaches `compute_schedules` on a non-empty
task set without a task id 0 and the function returns, the earliest dict
holds the entry `earliest[α] = 0`, while the latest dict has no entry for α:
the backward pass only writes task ids and ω. -/
theorem C3_latest_has_no_alpha (tasks : List Task) (hne : tasks ≠ [])
    (h0 : (0 : Int) ∉ taskIds tasks) (rk e l : Dict)
    (hrk : assign_ranks tasks = some rk)
    (h : compute_schedules tasks rk = some (e, l)) :
    dlookup e 0 = some 0 ∧ dlookup l 0 = none := by
  have homega0 : omegaKey tasks ≠ 0 := by
    have := omegaKey_pos tasks
    omega
  unfold compute_schedules at h
  rw [maxKeys_assign_ranks hrk] at h
  simp only [Option.bind_eq_bind, Option.some_bind] at h
  split at h
  case isFalse => exact absurd h (by simp)
  case isTrue hall =>
  cases hfold : (schedSorted tasks rk).foldlM (forwardStep tasks) [(0, 0)] with
  | none => rw [hfold] at h; exact absurd h (by simp)
  | some e1 =>
    rw [hfold] at h
    simp only [Option.bind_eq_bind, Option.some_bind] at h
    cases hom : omegaEarliest tasks e1 with
    | none => rw [hom] at h; exact absurd h (by simp)
    | some eOm =>
      rw [hom] at h
      simp only [Option.bind_eq_bind, Option.some_bind] at h
      cases hback : (schedSorted tasks rk).reverse.foldlM
          (backwardStep tasks (omegaKey tasks))
          (dinsert (omegaKey tasks) eOm []) with
      | none => rw [hback] at h; exact absurd h (by simp)
      | some lfin =>
        rw [hback] at h
        simp only [Option.bind_eq_bind, Option.some_bind] at h
        injection h with h
        rw [Prod.mk.injEq] at h
        obtain ⟨he, hl⟩ := h
        have he1 : dlookup e1 0 = some 0 := by
          apply foldlM_option_invariant (forwardStep tasks)
            (fun d => dlookup d 0 = some 0) (schedSorted tasks rk)
            ?_ [(0, 0)] e1 (by decide) hfold
          intro b a b' ha hb hf
          rcases forwardStep_cases hf with hcase | ⟨v, hcase⟩
          · rw [hcase]; exact hb
          · rw [hcase, dlookup_dinsert, if_neg, hb]
            intro hzero
            exact h0 (by
              rw [hzero]
              exact List.mem_map_of_mem taskId (mem_schedSorted.mp ha))
        have hl0 : dlookup lfin 0 = none := by
          apply foldlM_option_invariant (backwardStep tasks (omegaKey tasks))
            (fun d => dlookup d 0 = none) (schedSorted tasks rk).reverse
            ?_ (dinsert (omegaKey tasks) eOm []) lfin ?_ hback
          · intro b a b' ha hb hf
            rcases backwardStep_cases hf with hcase | ⟨v, hcase⟩
            · rw [hcase]; exact hb
            · rw [hcase, dlookup_dinsert, if_neg, hb]
              intro hzero
              exact h0 (by
                rw [hzero]
                exact List.mem_map_of_mem taskId
                  (mem_schedSorted.mp (List.mem_reverse.mp ha)))
          · rw [dlookup_dinsert, if_neg (fun hz => homega0 hz.symm), dlookup_nil]
        constructor
        · rw [← he, dlookup_dinsert, if_neg (fun hz => homega0 hz.symm), he1]
        · rw [← hl]
          exact hl0

/-- Witness for C3, at the specification's scenario. -/
theorem C3_latest_has_no_alpha_witness :
    dlookup scenEarliest 0 = some 0 ∧ dlookup scenLatest 0 = none :=
  C3_latest_has_no_alpha scenTasks (by simp [scenTasks]) (by decide)
    scenRanks scenEarliest scenLatest (by decide) (by decide)

/-- C10 counterexample: for the single task `(1,1,[1])`, which lists itself
as its only predecessor, `count_arcs` returns 1 while the claimed formula
(whose second summand counts tasks never appearing as a predecessor of
ANOTHER task) gives 2. -/
theorem C10_counterexample :
    count_arcs [(1, 1, [1])] = 1 ∧
    countArcsClaim [(1, 1, [1])] = 2 ∧
    count_arcs [(1, 1, [1])] ≠ countArcsClaim [(1, 1, [1])] := by
  refine ⟨by decide, by decide, by decide⟩

/-- C10 (amended): for every task set, `count_vertices` returns `|tasks|+2`,
and `count_arcs` returns `Σ max(1,|preds|)` plus the number of task ids
that never occur in ANY predecessor list (their own record's included): the
second summand of the claim must read "of any task" rather than "of another
task". -/
theorem C10_amended (tasks : List Task) :
    count_vertices tasks = tasks.length + 2 ∧
    count_arcs tasks = countArcsAmended tasks := by
  refine ⟨rfl, ?_⟩
  unfold count_arcs countArcsAmended
  rw [count_arcs_foldl]
  have hset : (allTasksSet tasks) \ (tasksWithSuccSet tasks) =
      (allTasksSet tasks).filter (fun tid => neverPredOfAny tasks tid = true) := by
    rw [Finset.sdiff_eq_filter]
    apply Finset.filter_congr
    intro x _
    rw [mem_tasksWithSuccSet]
    simp [neverPredOfAny]
  rw [hset]
  simp

end Ordon
